import Mathlib

/-!
A shallow embedding of the odm-plugin contract.

Two Go source files are embedded here.

* `plugin-interface.go` (package `odmplugin`): the request envelope
  `ExecutionRequestBody`, the one-method interface `Executer`, the plugin definition
  `ExecuterPlugin` with its `Client` and `Server` methods, the two RPC stubs
  `ExecuterRPCClient` and `ExecuterRPCServer`, and the two package variables
  `HandshakeConfig` and `PluginMap`.
* `example/sample.go` (package `main`, here namespace `sample`): the reference
  implementation `ExecuterImpl` and `main`.

Conventions of the embedding.

* The request body, the one Go `string` whose bytes the code reads (`[]byte(body)` is handed
  to `json.Unmarshal`), is a `GoString`: a list of bytes, well-formed UTF-8 or not.
* Every other Go `string` is only stored, compared with a constant or handed on, and is a
  `String`. So is a string `json.Unmarshal` decodes: what it stores is always well-formed
  UTF-8.
* A Go result pair `(string, error)` is a `String × Option ε`; `none` is the `nil` error.
* A Go interface value that may be `nil` is an `Option`; calling a method on the `nil`
  interface is a run-time panic, which a model function reports by returning `none` for
  the whole call.
* A method that may touch state outside its arguments takes that state and returns the
  new one (`σ` for an implementation, `τ` for a transport, `World` for the sample).
* A `*string` output parameter is a `String` argument (the content before the call)
  together with a `String` in the result (the content after the call).
* Library functions the two files call (`context.Background`, `json.Unmarshal`,
  `log.Printf`, `rpc.Client.Call`) are modelled after the behaviour their packages document.
-/

/-! ## Go values -/

/-- A Go string as the sequence of its bytes. -/
abbrev GoString := List UInt8

/-- A Go map with string keys, as the list of its key/value pairs. A composite literal lists
them in source order; `GoMap.set` keeps the keys distinct. -/
abbrev GoMap (α : Type) := List (String × α)

/-- Indexing `m[name]` with the comma-ok form: the value, or `none` when the key is absent. -/
def GoMap.get {α : Type} (m : GoMap α) (name : String) : Option α :=
  List.lookup name m

/-- The keys of a map. -/
def GoMap.keys {α : Type} (m : GoMap α) : List String :=
  m.map Prod.fst

/-- The assignment `m[k] = v`: replaces the value of an existing key, adds the pair otherwise. -/
def GoMap.set {α : Type} (m : GoMap α) (k : String) (v : α) : GoMap α :=
  match m with
  | [] => [(k, v)]
  | (k1, v1) :: rest => if k1 = k then (k, v) :: rest else (k1, v1) :: GoMap.set rest k v

/-- The values of type `any` that `encoding/json` stores when it decodes into an empty
interface: `nil`, `bool`, `float64`, `string`, `[]any` and `map[string]any`. A `float64` is
represented by the number literal it was converted from. -/
inductive GoAny where
  | nil
  | bool (b : Bool)
  | float64 (lit : String)
  | string (s : String)
  | slice (xs : List GoAny)
  | map (m : List (String × GoAny))
deriving Repr

/-! ## unicode/utf8 -/

namespace utf8

/-- The rune `utf8.RuneError`, U+FFFD, the replacement character. -/
def RuneError : Char := Char.ofNat 0xFFFD

/-- The bytes `utf8.AppendRune` writes for a character: its UTF-8 encoding. -/
def EncodeRune (c : Char) : GoString :=
  let r := c.toNat
  if r < 0x80 then [r.toUInt8]
  else if r < 0x800 then [(0xC0 + r / 64).toUInt8, (0x80 + r % 64).toUInt8]
  else if r < 0x10000 then
    [(0xE0 + r / 4096).toUInt8, (0x80 + r / 64 % 64).toUInt8, (0x80 + r % 64).toUInt8]
  else
    [(0xF0 + r / 262144).toUInt8, (0x80 + r / 4096 % 64).toUInt8,
      (0x80 + r / 64 % 64).toUInt8, (0x80 + r % 64).toUInt8]

/-- A continuation byte, `0x80` to `0xBF`. -/
def isCont (b : UInt8) : Bool := decide (0x80 ≤ b.toNat) && decide (b.toNat ≤ 0xBF)

/-- The second byte a first byte accepts (the table `acceptRanges`): `0xE0` wants `0xA0` to
`0xBF`, `0xED` wants `0x80` to `0x9F`, `0xF0` wants `0x90` to `0xBF`, `0xF4` wants `0x80` to
`0x8F`, every other first byte wants a continuation byte. -/
def accepts (p0 b1 : UInt8) : Bool :=
  if p0.toNat = 0xE0 then decide (0xA0 ≤ b1.toNat) && decide (b1.toNat ≤ 0xBF)
  else if p0.toNat = 0xED then decide (0x80 ≤ b1.toNat) && decide (b1.toNat ≤ 0x9F)
  else if p0.toNat = 0xF0 then decide (0x90 ≤ b1.toNat) && decide (b1.toNat ≤ 0xBF)
  else if p0.toNat = 0xF4 then decide (0x80 ≤ b1.toNat) && decide (b1.toNat ≤ 0x8F)
  else isCont b1

/-- The function `utf8.DecodeRune` on a text that is not empty: the first character and the
number of bytes it takes, or `(RuneError, 1)` when the text does not start with a well-formed
encoding. A first byte below `0x80` is the character itself; `0xC2` to `0xDF` starts two
bytes, `0xE0` to `0xEF` three, `0xF0` to `0xF4` four; any other first byte is an error. -/
def DecodeRune : GoString → Char × Nat
  | [] => (RuneError, 0)
  | p0 :: rest =>
    if p0.toNat < 0x80 then (Char.ofNat p0.toNat, 1)
    else if p0.toNat < 0xC2 then (RuneError, 1)
    else if p0.toNat < 0xE0 then
      match rest with
      | b1 :: _ =>
        if accepts p0 b1 then (Char.ofNat ((p0.toNat - 0xC0) * 64 + (b1.toNat - 0x80)), 2)
        else (RuneError, 1)
      | _ => (RuneError, 1)
    else if p0.toNat < 0xF0 then
      match rest with
      | b1 :: b2 :: _ =>
        if accepts p0 b1 && isCont b2 then
          (Char.ofNat ((p0.toNat - 0xE0) * 4096 + (b1.toNat - 0x80) * 64 + (b2.toNat - 0x80)), 3)
        else (RuneError, 1)
      | _ => (RuneError, 1)
    else if p0.toNat < 0xF5 then
      match rest with
      | b1 :: b2 :: b3 :: _ =>
        if accepts p0 b1 && isCont b2 && isCont b3 then
          (Char.ofNat ((p0.toNat - 0xF0) * 262144 + (b1.toNat - 0x80) * 4096
            + (b2.toNat - 0x80) * 64 + (b3.toNat - 0x80)), 4)
        else (RuneError, 1)
      | _ => (RuneError, 1)
    else (RuneError, 1)

/-- The loop of `utf8.Valid` from a position on; `skip` is the number of bytes still to pass
over, the rest of an encoding already checked. -/
def validFrom : Nat → GoString → Bool
  | _, [] => true
  | skip + 1, _ :: rest => validFrom skip rest
  | 0, p0 :: rest =>
    if p0.toNat < 0x80 then validFrom 0 rest
    else if (DecodeRune (p0 :: rest)).2 = 1 then false
    else validFrom ((DecodeRune (p0 :: rest)).2 - 1) rest

/-- The function `utf8.Valid`: whether the bytes are well-formed UTF-8 throughout. -/
def Valid (p : GoString) : Bool := validFrom 0 p

end utf8

/-- The bytes of the Go string literal that is written with the characters of `s`: their
UTF-8 encoding. -/
def GoString.ofString (s : String) : GoString :=
  s.toList.flatMap utf8.EncodeRune

/-! ## Library types the two files use -/

namespace context

/-- What a `context.Context` lets its holder observe: whether it is done (cancelled or past
its deadline), its deadline, and its key/value pairs. -/
structure Context where
  done : Bool
  deadline : Option Nat
  values : List (String × String)
deriving DecidableEq, Repr

/-- The value of `context.Background()`: never done, no deadline, no values. -/
def Background : Context := ⟨false, none, []⟩

end context

namespace rpc

/-- A `*rpc.Client`, seen through the one method the client stub uses:
`Call(serviceMethod, args, reply)`. The arguments are the method name, the string argument
and the content of the reply location before the call; the result is the content of the
reply location after the call and the returned error. `τ` is whatever the other side of the
connection keeps. -/
structure Client (τ ε : Type) where
  Call : String → GoString → String → τ → Option ((String × Option ε) × τ)

end rpc

namespace plugin

/-- The `*plugin.MuxBroker` handed to `Client` and `Server`; neither method looks at it. -/
structure MuxBroker where
  id : Nat
deriving DecidableEq, Repr

/-- The three fields of `plugin.HandshakeConfig` the repository sets. -/
structure HandshakeConfig where
  ProtocolVersion : Nat
  MagicCookieKey : String
  MagicCookieValue : String
deriving DecidableEq, Repr

/-- The two fields of `plugin.ServeConfig` the sample sets; `P` is the type of the values of
interface type `plugin.Plugin`. -/
structure ServeConfig (P : Type) where
  HandshakeConfig : HandshakeConfig
  Plugins : GoMap P

end plugin

namespace odmplugin

/-! ## plugin-interface.go -/

/-- The struct `ExecutionRequestBody`, with JSON field names `args`, `options` and `input`.
A map field is `none` when the Go map is `nil`. -/
structure ExecutionRequestBody where
  Args : Option (GoMap String)
  Options : Option (GoMap GoAny)
  Input : String

/-- The interface `Executer`: one method `Execute(ctx, body) (string, error)`. An
implementation may keep state `σ` and may fail to return (`none`). -/
structure Executer (σ ε : Type) where
  Execute : context.Context → GoString → σ → Option ((String × Option ε) × σ)

/-- The struct `ExecuterPlugin`. Its embedded `plugin.Plugin` interface is left `nil` by
every constructor call in the repository and is read by no method, so only `Impl` is kept;
`Impl` is an interface value and may be `nil`. -/
structure ExecuterPlugin (σ ε : Type) where
  Impl : Option (Executer σ ε)

/-- The struct `ExecuterRPCClient`. -/
structure ExecuterRPCClient (τ ε : Type) where
  client : rpc.Client τ ε

/-- The struct `ExecuterRPCServer`. -/
structure ExecuterRPCServer (σ ε : Type) where
  Impl : Option (Executer σ ε)

/-- The method `(*ExecuterPlugin).Client`: wraps the given RPC client, error `nil`. -/
def ExecuterPlugin.Client {σ ε τ : Type} (_p : ExecuterPlugin σ ε) (_broker : plugin.MuxBroker)
    (client : rpc.Client τ ε) : ExecuterRPCClient τ ε × Option ε :=
  (⟨client⟩, none)

/-- The method `(*ExecuterPlugin).Server`: a server stub around `p.Impl`, error `nil`. -/
def ExecuterPlugin.Server {σ ε : Type} (p : ExecuterPlugin σ ε) (_broker : plugin.MuxBroker) :
    ExecuterRPCServer σ ε × Option ε :=
  (⟨p.Impl⟩, none)

/-- The method `(*ExecuterRPCClient).Execute`: `resp` starts as the empty string, one
`Call` of `"Plugin.Execute"` with the body, and `(resp, err)` is returned. The context is
not used. (The comment above the call in the source speaks of a method `Plugin.Greet` taking
a map with the context; the statement that runs is the call of `"Plugin.Execute"` with the
body alone, and that is what is embedded.) -/
def ExecuterRPCClient.Execute {τ ε : Type} (g : ExecuterRPCClient τ ε) (_ctx : context.Context)
    (body : GoString) (t : τ) : Option ((String × Option ε) × τ) :=
  let resp : String := ""
  match g.client.Call "Plugin.Execute" body resp t with
  | none => none
  | some ((resp', err), t') => some ((resp', err), t')

/-- The method `(*ExecuterRPCServer).Execute(body, resp)`. The result pairs the content of
`*resp` after the call with the returned error. -/
def ExecuterRPCServer.Execute {σ ε : Type} (g : ExecuterRPCServer σ ε) (body : GoString)
    (resp : String) (s : σ) : Option ((String × Option ε) × σ) :=
  let ctx := context.Background
  match g.Impl with
  | none => none
  | some impl =>
    match impl.Execute ctx body s with
    | none => none
    | some ((result, err), s') =>
      match err with
      | some e => some ((resp, some e), s')
      | none => some ((result, none), s')

/-- The package variable `HandshakeConfig`. -/
def HandshakeConfig : plugin.HandshakeConfig := ⟨1, "magic", "cookie"⟩

/-- The dynamic values of interface type `plugin.Plugin` that occur in the repository: a
pointer to an `ExecuterPlugin`, or a pointer to the sample's `ExecuterImpl` (which embeds
`plugin.Plugin` and so satisfies it). -/
inductive Plugin (σ ε : Type) where
  | ExecuterPlugin (p : ExecuterPlugin σ ε)
  | ExecuterImpl

/-- The package variable `PluginMap`. -/
def PluginMap (σ ε : Type) : GoMap (Plugin σ ε) :=
  [("executer", Plugin.ExecuterPlugin ⟨none⟩)]

end odmplugin

/-! ## encoding/json: `Unmarshal` into an `ExecutionRequestBody`

`json.Unmarshal(data, v)` first checks that `data` is one syntactically valid JSON value
(`checkValid`) and returns a `*SyntaxError` when it is not; only then does it decode, storing
into `v` and remembering the first type mismatch (`saveError`), which it returns at the end.

The model reads the bytes into a tree (`parse`, which succeeds when the scanner accepts the
text) and decodes the tree into the struct (`value`, specialised to the three field types).
The scanner works on bytes: inside a string literal it lets every byte from `0x20` on pass
except the quote and the backslash, so it does not ask for well-formed UTF-8 there; when the
literal is unquoted, a byte that is not part of a well-formed encoding becomes U+FFFD.

Of a `SyntaxError` the message and the offset, which Go computes from the rejected text, are
not modelled; the rejected text itself is kept in their place. An `UnmarshalTypeError` keeps
the JSON kind and the Go type. -/

namespace json

/-- The two error types `Unmarshal` returns. A `SyntaxError` carries the text that was
rejected, which stands for the message and the offset Go derives from it. -/
inductive Error where
  | SyntaxError (data : GoString)
  | UnmarshalTypeError (Value : String) (GoType : String)
deriving DecidableEq, Repr

/-- A JSON text read into a tree. Strings are unquoted, a number keeps its literal, an object
keeps its members in the order of the text, repeated keys included. -/
inductive Value where
  | null
  | bool (b : Bool)
  | number (lit : GoString)
  | string (s : String)
  | array (xs : List Value)
  | object (ms : List (String × Value))
deriving Repr

/-- The scanner's `isSpace`. -/
def isSpace (c : UInt8) : Bool :=
  c = ' '.toUInt8 || c = '\t'.toUInt8 || c = '\r'.toUInt8 || c = '\n'.toUInt8

/-- Drops leading white space. -/
def skipSpace : GoString → GoString
  | [] => []
  | c :: cs => if isSpace c then skipSpace cs else c :: cs

/-- A decimal digit. -/
def isDigit (c : UInt8) : Bool := decide ('0'.toUInt8 ≤ c) && decide (c ≤ '9'.toUInt8)

/-- A hexadecimal digit of either case. -/
def isHex (c : UInt8) : Bool :=
  isDigit c || (decide ('a'.toUInt8 ≤ c) && decide (c ≤ 'f'.toUInt8))
    || (decide ('A'.toUInt8 ≤ c) && decide (c ≤ 'F'.toUInt8))

/-- The scanner inside a string literal, after the opening quote (`stateInString`,
`stateInStringEsc`, `stateInStringEscU` and the three states after it): returns the raw
content up to the closing quote and the text after that quote. A byte below `0x20`, an
unknown escape, a short `\u` escape or a missing closing quote is an error; any other byte
passes, whether or not it belongs to a well-formed UTF-8 encoding. -/
def scanString : GoString → Option (GoString × GoString)
  | [] => none
  | c :: cs =>
    if c = '"'.toUInt8 then some ([], cs)
    else if c = '\\'.toUInt8 then
      match cs with
      | [] => none
      | e :: cs1 =>
        if e = 'u'.toUInt8 then
          match cs1 with
          | h1 :: h2 :: h3 :: h4 :: cs2 =>
            if isHex h1 && isHex h2 && isHex h3 && isHex h4 then
              match scanString cs2 with
              | none => none
              | some (raw, r) => some (c :: e :: h1 :: h2 :: h3 :: h4 :: raw, r)
            else none
          | _ => none
        else if e = '"'.toUInt8 || e = '\\'.toUInt8 || e = '/'.toUInt8 || e = 'b'.toUInt8
            || e = 'f'.toUInt8 || e = 'n'.toUInt8 || e = 'r'.toUInt8 || e = 't'.toUInt8 then
          match scanString cs1 with
          | none => none
          | some (raw, r) => some (c :: e :: raw, r)
        else none
    else if c.toNat < 0x20 then none
    else
      match scanString cs with
      | none => none
      | some (raw, r) => some (c :: raw, r)

/-- The longest run of digits at the front, and the rest. -/
def takeDigits : GoString → GoString × GoString
  | [] => ([], [])
  | c :: cs => if isDigit c then (c :: (takeDigits cs).1, (takeDigits cs).2) else ([], c :: cs)

/-- The integer part of a number (`state0`, `state1`): a single `0`, or a digit from 1 to 9
followed by digits. -/
def scanInt : GoString → Option (GoString × GoString)
  | [] => none
  | c :: cs =>
    if c = '0'.toUInt8 then some ([c], cs)
    else if isDigit c then some (c :: (takeDigits cs).1, (takeDigits cs).2)
    else none

/-- The optional fraction (`stateDot`, `stateDot0`): a point followed by at least one digit. -/
def scanFrac : GoString → Option (GoString × GoString)
  | [] => some ([], [])
  | c :: cs =>
    if c = '.'.toUInt8 then
      match takeDigits cs with
      | ([], _) => none
      | (d :: ds, r) => some (c :: d :: ds, r)
    else some ([], c :: cs)

/-- The digits of an exponent (`stateESign`, `stateE0`): at least one. -/
def scanExpDigits (pre : GoString) (cs : GoString) : Option (GoString × GoString) :=
  match takeDigits cs with
  | ([], _) => none
  | (d :: ds, r) => some (pre ++ d :: ds, r)

/-- The optional exponent (`stateE`): `e` or `E`, an optional sign, digits. -/
def scanExp : GoString → Option (GoString × GoString)
  | [] => some ([], [])
  | c :: cs =>
    if c = 'e'.toUInt8 || c = 'E'.toUInt8 then
      match cs with
      | [] => none
      | s :: cs1 =>
        if s = '+'.toUInt8 || s = '-'.toUInt8 then scanExpDigits [c, s] cs1
        else scanExpDigits [c] (s :: cs1)
    else some ([], c :: cs)

/-- The scanner on a number (`stateNeg` and the states above): the literal and the rest. -/
def scanNumber (cs : GoString) : Option (GoString × GoString) :=
  let signed : GoString × GoString :=
    match cs with
    | [] => ([], [])
    | c :: r => if c = '-'.toUInt8 then ([c], r) else ([], c :: r)
  match scanInt signed.2 with
  | none => none
  | some (i, cs2) =>
    match scanFrac cs2 with
    | none => none
    | some (f, cs3) =>
      match scanExp cs3 with
      | none => none
      | some (e, cs4) => some (signed.1 ++ i ++ f ++ e, cs4)

/-- The value of a hexadecimal digit. -/
def hexVal (c : UInt8) : Nat :=
  if isDigit c then c.toNat - '0'.toNat
  else if decide ('a'.toUInt8 ≤ c) && decide (c ≤ 'f'.toUInt8) then c.toNat - 'a'.toNat + 10
  else c.toNat - 'A'.toNat + 10

/-- The decoder's `getu4`: the number written by a `\uXXXX` escape at the front of the text,
`none` (Go: `-1`) when the text does not start with one. -/
def getu4 : GoString → Option Nat
  | b :: u :: h1 :: h2 :: h3 :: h4 :: _ =>
    if b = '\\'.toUInt8 && u = 'u'.toUInt8 && isHex h1 && isHex h2 && isHex h3 && isHex h4 then
      some (((hexVal h1 * 16 + hexVal h2) * 16 + hexVal h3) * 16 + hexVal h4)
    else none
  | _ => none

/-- The rune `unicode.ReplacementChar`, U+FFFD. -/
def ReplacementChar : Char := Char.ofNat 0xFFFD

/-- The function `utf16.IsSurrogate`. -/
def IsSurrogate (r : Nat) : Bool := decide (0xD800 ≤ r) && decide (r < 0xE000)

/-- The function `utf16.DecodeRune`: the code point of a surrogate pair, U+FFFD when the two
numbers are not a high surrogate followed by a low one. -/
def DecodeRune (r1 : Nat) (r2 : Option Nat) : Char :=
  match r2 with
  | none => ReplacementChar
  | some r2 =>
    if 0xD800 ≤ r1 ∧ r1 < 0xDC00 ∧ 0xDC00 ≤ r2 ∧ r2 < 0xE000 then
      Char.ofNat ((r1 - 0xD800) * 1024 + (r2 - 0xDC00) + 0x10000)
    else ReplacementChar

/-- The character a one-letter escape stands for. -/
def unescape (e : UInt8) : Char :=
  if e = 'b'.toUInt8 then Char.ofNat 8
  else if e = 'f'.toUInt8 then Char.ofNat 12
  else if e = 'n'.toUInt8 then '\n'
  else if e = 'r'.toUInt8 then '\r'
  else if e = 't'.toUInt8 then '\t'
  else Char.ofNat e.toNat

/-- The loop of the decoder's `unquote` from a position on, over the raw content of a
literal the scanner accepted; `skip` is the number of bytes still to pass over, the rest of
an escape or of an encoding already read. An escape gives the character it stands for, a
`\u` escape that is half of a surrogate pair without its other half gives U+FFFD, a byte
below `0x80` gives itself, and any other byte is read with `utf8.DecodeRune`: a well-formed
encoding gives its character, a byte that starts none gives U+FFFD. -/
def unquoteFrom : Nat → GoString → List Char
  | _, [] => []
  | skip + 1, _ :: cs => unquoteFrom skip cs
  | 0, c :: cs =>
    if c = '\\'.toUInt8 then
      match cs with
      | [] => []
      | e :: _ =>
        if e = 'u'.toUInt8 then
          match getu4 (c :: cs) with
          | none => []
          | some rr =>
            if IsSurrogate rr then
              if DecodeRune rr (getu4 (cs.drop 5)) ≠ ReplacementChar then
                DecodeRune rr (getu4 (cs.drop 5)) :: unquoteFrom 11 cs
              else ReplacementChar :: unquoteFrom 5 cs
            else Char.ofNat rr :: unquoteFrom 5 cs
        else unescape e :: unquoteFrom 1 cs
    else if c.toNat < 0x80 then Char.ofNat c.toNat :: unquoteFrom 0 cs
    else (utf8.DecodeRune (c :: cs)).1 :: unquoteFrom ((utf8.DecodeRune (c :: cs)).2 - 1) cs

/-- The decoder's `unquote`, on the raw content of a literal the scanner accepted. -/
def unquote (raw : GoString) : List Char := unquoteFrom 0 raw

/-- The scanner's `maxNestingDepth`. -/
def maxNestingDepth : Nat := 10000

/-- One of the words `true`, `false`, `null`: the text has to start with the whole word. -/
def literal (word : GoString) (v : Value) (cs : GoString) : Option (Value × GoString) :=
  if cs.take word.length = word then some (v, cs.drop word.length) else none

mutual
/-- One JSON value at the front of the text (the scanner from `stateBeginValue` to the
matching `stateEndValue`), as a tree, and the rest of the text. The first argument bounds
the depth of the calls (of two nested calls at least one consumes a byte, so twice the
length of the text plus one is enough); the second is the number of arrays and objects that
are open. -/
def parseValue : Nat → Nat → GoString → Option (Value × GoString)
  | 0, _, _ => none
  | fuel + 1, depth, cs =>
    match cs with
    | [] => none
    | c :: rest =>
      if c = '{'.toUInt8 then
        if maxNestingDepth < depth + 1 then none
        else
          match skipSpace rest with
          | [] => none
          | c1 :: rest1 =>
            if c1 = '}'.toUInt8 then some (Value.object [], rest1)
            else
              match parseMembers fuel (depth + 1) (c1 :: rest1) with
              | none => none
              | some (ms, r) => some (Value.object ms, r)
      else if c = '['.toUInt8 then
        if maxNestingDepth < depth + 1 then none
        else
          match skipSpace rest with
          | [] => none
          | c1 :: rest1 =>
            if c1 = ']'.toUInt8 then some (Value.array [], rest1)
            else
              match parseElements fuel (depth + 1) (c1 :: rest1) with
              | none => none
              | some (xs, r) => some (Value.array xs, r)
      else if c = '"'.toUInt8 then
        match scanString rest with
        | none => none
        | some (raw, r) => some (Value.string (String.mk (unquote raw)), r)
      else if c = '-'.toUInt8 || isDigit c then
        match scanNumber (c :: rest) with
        | none => none
        | some (lit, r) => some (Value.number lit, r)
      else if c = 't'.toUInt8 then
        literal ['t'.toUInt8, 'r'.toUInt8, 'u'.toUInt8, 'e'.toUInt8] (Value.bool true) (c :: rest)
      else if c = 'f'.toUInt8 then
        literal ['f'.toUInt8, 'a'.toUInt8, 'l'.toUInt8, 's'.toUInt8, 'e'.toUInt8]
          (Value.bool false) (c :: rest)
      else if c = 'n'.toUInt8 then
        literal ['n'.toUInt8, 'u'.toUInt8, 'l'.toUInt8, 'l'.toUInt8] Value.null (c :: rest)
      else none
/-- The members of an object from the opening quote of a key on, up to and including the
closing brace. -/
def parseMembers : Nat → Nat → GoString → Option (List (String × Value) × GoString)
  | 0, _, _ => none
  | fuel + 1, depth, cs =>
    match cs with
    | [] => none
    | q :: rest =>
      if q = '"'.toUInt8 then
        match scanString rest with
        | none => none
        | some (raw, r1) =>
          match skipSpace r1 with
          | [] => none
          | colon :: r2 =>
            if colon = ':'.toUInt8 then
              match parseValue fuel depth (skipSpace r2) with
              | none => none
              | some (v, r3) =>
                match skipSpace r3 with
                | [] => none
                | sep :: r4 =>
                  if sep = ','.toUInt8 then
                    match parseMembers fuel depth (skipSpace r4) with
                    | none => none
                    | some (ms, r5) => some ((String.mk (unquote raw), v) :: ms, r5)
                  else if sep = '}'.toUInt8 then some ([(String.mk (unquote raw), v)], r4)
                  else none
            else none
      else none
/-- The elements of an array from the first byte of an element on, up to and including the
closing bracket. -/
def parseElements : Nat → Nat → GoString → Option (List Value × GoString)
  | 0, _, _ => none
  | fuel + 1, depth, cs =>
    match parseValue fuel depth cs with
    | none => none
    | some (v, r1) =>
      match skipSpace r1 with
      | [] => none
      | sep :: r2 =>
        if sep = ','.toUInt8 then
          match parseElements fuel depth (skipSpace r2) with
          | none => none
          | some (xs, r3) => some (v :: xs, r3)
        else if sep = ']'.toUInt8 then some ([v], r2)
        else none
end

/-- The whole text (`checkValid`): white space, one value, white space, end of input. -/
def parse (data : GoString) : Option Value :=
  match parseValue (2 * data.length + 1) 0 (skipSpace data) with
  | none => none
  | some (v, rest) =>
    match skipSpace rest with
    | [] => some v
    | _ :: _ => none

/-- The function `json.Valid`: whether `checkValid` accepts the text. -/
def Valid (data : GoString) : Bool := (parse data).isSome

/-! ### The JSON grammar (RFC 8259), on bytes -/

namespace grammar

/-- White space: any number of spaces, tabs, line feeds and carriage returns. -/
def ws (cs : GoString) : Prop :=
  ∀ c ∈ cs, c = ' '.toUInt8 ∨ c = '\t'.toUInt8 ∨ c = '\n'.toUInt8 ∨ c = '\r'.toUInt8

/-- A digit `0`..`9`. -/
def digit (c : UInt8) : Prop := '0'.toUInt8 ≤ c ∧ c ≤ '9'.toUInt8

/-- A hexadecimal digit. -/
def hexdig (c : UInt8) : Prop :=
  digit c ∨ ('a'.toUInt8 ≤ c ∧ c ≤ 'f'.toUInt8) ∨ ('A'.toUInt8 ≤ c ∧ c ≤ 'F'.toUInt8)

/-- One or more digits. -/
def digits (cs : GoString) : Prop := cs ≠ [] ∧ ∀ c ∈ cs, digit c

/-- The integer part: `0`, or a digit `1`..`9` followed by any number of digits. -/
def int (cs : GoString) : Prop :=
  cs = ['0'.toUInt8]
    ∨ ∃ d ds, cs = d :: ds ∧ '1'.toUInt8 ≤ d ∧ d ≤ '9'.toUInt8 ∧ ∀ c ∈ ds, digit c

/-- A fraction: a point and one or more digits. -/
def frac (cs : GoString) : Prop := ∃ ds, cs = '.'.toUInt8 :: ds ∧ digits ds

/-- An exponent: `e` or `E`, an optional sign, one or more digits. -/
def exp (cs : GoString) : Prop :=
  ∃ e sign ds, cs = e :: (sign ++ ds) ∧ (e = 'e'.toUInt8 ∨ e = 'E'.toUInt8)
    ∧ (sign = [] ∨ sign = ['+'.toUInt8] ∨ sign = ['-'.toUInt8]) ∧ digits ds

/-- A number: an optional minus, an integer part, an optional fraction, an optional exponent. -/
def number (cs : GoString) : Prop :=
  ∃ minus i f e, cs = minus ++ i ++ f ++ e ∧ (minus = [] ∨ minus = ['-'.toUInt8]) ∧ int i
    ∧ (f = [] ∨ frac f) ∧ (e = [] ∨ exp e)

/-- The bytes between the quotes of a string: unescaped bytes from `0x20` on other than the
quote and the backslash, the eight two-byte escapes, and `\u` with four hexadecimal digits.
The unescaped bytes are not asked to be well-formed UTF-8: that is `IsJSONText`. -/
inductive chars : GoString → Prop where
  | nil : chars []
  | unescaped (c : UInt8) (cs : GoString) : 0x20 ≤ c.toNat → c ≠ '"'.toUInt8 →
      c ≠ '\\'.toUInt8 → chars cs → chars (c :: cs)
  | escape (e : UInt8) (cs : GoString) :
      e = '"'.toUInt8 ∨ e = '\\'.toUInt8 ∨ e = '/'.toUInt8 ∨ e = 'b'.toUInt8 ∨ e = 'f'.toUInt8
        ∨ e = 'n'.toUInt8 ∨ e = 'r'.toUInt8 ∨ e = 't'.toUInt8 →
      chars cs → chars ('\\'.toUInt8 :: e :: cs)
  | unicode (h1 h2 h3 h4 : UInt8) (cs : GoString) :
      hexdig h1 → hexdig h2 → hexdig h3 → hexdig h4 → chars cs →
      chars ('\\'.toUInt8 :: 'u'.toUInt8 :: h1 :: h2 :: h3 :: h4 :: cs)

/-- A string: characters between two quotes. -/
def string (cs : GoString) : Prop :=
  ∃ body, cs = '"'.toUInt8 :: (body ++ ['"'.toUInt8]) ∧ chars body

mutual
/-- A value. -/
inductive value : GoString → Prop where
  | null : value ['n'.toUInt8, 'u'.toUInt8, 'l'.toUInt8, 'l'.toUInt8]
  | true : value ['t'.toUInt8, 'r'.toUInt8, 'u'.toUInt8, 'e'.toUInt8]
  | false : value ['f'.toUInt8, 'a'.toUInt8, 'l'.toUInt8, 's'.toUInt8, 'e'.toUInt8]
  | number (cs : GoString) : number cs → value cs
  | string (cs : GoString) : string cs → value cs
  | emptyArray (w : GoString) : ws w → value ('['.toUInt8 :: (w ++ [']'.toUInt8]))
  | array (es : GoString) : elements es → value ('['.toUInt8 :: (es ++ [']'.toUInt8]))
  | emptyObject (w : GoString) : ws w → value ('{'.toUInt8 :: (w ++ ['}'.toUInt8]))
  | object (ms : GoString) : members ms → value ('{'.toUInt8 :: (ms ++ ['}'.toUInt8]))
/-- One or more elements separated by commas; an element is a value with white space around
it. -/
inductive elements : GoString → Prop where
  | one (w1 v w2 : GoString) : ws w1 → value v → ws w2 → elements (w1 ++ v ++ w2)
  | cons (w1 v w2 es : GoString) : ws w1 → value v → ws w2 → elements es →
      elements (w1 ++ v ++ w2 ++ ','.toUInt8 :: es)
/-- One or more members separated by commas; a member is a string, a colon and a value, with
white space around each. -/
inductive members : GoString → Prop where
  | one (w1 k w2 w3 v w4 : GoString) : ws w1 → string k → ws w2 → ws w3 → value v → ws w4 →
      members (w1 ++ k ++ w2 ++ ':'.toUInt8 :: (w3 ++ v ++ w4))
  | cons (w1 k w2 w3 v w4 ms : GoString) : ws w1 → string k → ws w2 → ws w3 → value v →
      ws w4 → members ms →
      members (w1 ++ k ++ w2 ++ ':'.toUInt8 :: (w3 ++ v ++ w4) ++ ','.toUInt8 :: ms)
end

/-- A text of the grammar: one value with white space around it. -/
def text (cs : GoString) : Prop := ∃ w1 v w2, cs = w1 ++ v ++ w2 ∧ ws w1 ∧ value v ∧ ws w2

end grammar

/-- A valid JSON text (RFC 8259, sections 2 and 8.1): a text of the grammar that is
well-formed UTF-8. -/
def IsJSONText (data : GoString) : Prop := utf8.Valid data = true ∧ grammar.text data

/-! ### Decoding -/

/-- A decimal number `±mant × 10 ^ exp10`. -/
structure decimal where
  neg : Bool
  mant : Nat
  exp10 : Int
deriving DecidableEq, Repr

/-- The value of a decimal digit. -/
def digitVal (c : UInt8) : Nat := c.toNat - '0'.toNat

/-- The number a run of digits writes. -/
def digitsVal (ds : GoString) : Nat := ds.foldl (fun n c => n * 10 + digitVal c) 0

/-- The exponent as `strconv` reads it: a digit is taken in only while the value so far is
below 10000. -/
def expVal (ds : GoString) : Nat :=
  ds.foldl (fun e c => if e < 10000 then e * 10 + digitVal c else e) 0

/-- The decimal number that `strconv` reads from a JSON number literal: sign, the digits
before and after the point, and the exponent less the number of digits after the point. -/
def readFloat (lit : GoString) : decimal :=
  let signed : Bool × GoString :=
    match lit with
    | [] => (false, [])
    | c :: r => if c = '-'.toUInt8 then (true, r) else (false, c :: r)
  let ip := takeDigits signed.2
  let fp : GoString × GoString :=
    match ip.2 with
    | [] => ([], [])
    | c :: r => if c = '.'.toUInt8 then takeDigits r else ([], c :: r)
  let e : Int :=
    match fp.2 with
    | [] => 0
    | c :: r =>
      if c = 'e'.toUInt8 || c = 'E'.toUInt8 then
        match r with
        | [] => 0
        | s :: ds =>
          if s = '-'.toUInt8 then - (expVal ds : Int)
          else if s = '+'.toUInt8 then (expVal ds : Int)
          else (expVal (s :: ds) : Int)
      else 0
  ⟨signed.1, digitsVal (ip.1 ++ fp.1), e - (fp.1.length : Int)⟩

/-- The least magnitude that rounds (to nearest, ties to even) beyond the largest `float64`:
half a unit in the last place above `(2 ^ 53 - 1) * 2 ^ 971`. -/
def float64Limit : Nat := (2 ^ 54 - 1) * 2 ^ 970

/-- Whether `strconv.ParseFloat(s, 64)` reports `ErrRange` for the decimal read from `s`. -/
def overflowsFloat64 (d : decimal) : Bool :=
  if 0 ≤ d.exp10 then decide (float64Limit ≤ d.mant * 10 ^ d.exp10.toNat)
  else decide (float64Limit * 10 ^ (-d.exp10).toNat ≤ d.mant)

/-- The decoder's `saveError`: only the first error is kept. -/
def saveError (savedError : Option Error) (err : Error) : Option Error :=
  match savedError with
  | none => some err
  | some e => some e

/-- The string `string(item)` of a number literal, whose bytes are all below `0x80`. -/
def literalString (lit : GoString) : String := String.mk (lit.map (fun b => Char.ofNat b.toNat))

/-- The decoder's `convertNumber`, with the callers' handling of its error: a literal out of
the range of `float64` saves an `UnmarshalTypeError` and stores `nil`. -/
def convertNumber (lit : GoString) (savedError : Option Error) : GoAny × Option Error :=
  if overflowsFloat64 (readFloat lit) then
    (GoAny.nil,
      saveError savedError (Error.UnmarshalTypeError ("number " ++ literalString lit) "float64"))
  else (GoAny.float64 (literalString lit), savedError)

mutual
/-- The decoder's `valueInterface`: a value decoded into an empty interface. -/
def valueInterface : Value → Option Error → GoAny × Option Error
  | Value.null, sv => (GoAny.nil, sv)
  | Value.bool b, sv => (GoAny.bool b, sv)
  | Value.number lit, sv => convertNumber lit sv
  | Value.string s, sv => (GoAny.string s, sv)
  | Value.array xs, sv => (GoAny.slice (arrayInterface xs sv).1, (arrayInterface xs sv).2)
  | Value.object ms, sv => (GoAny.map (objectInterface ms [] sv).1, (objectInterface ms [] sv).2)
/-- The decoder's `arrayInterface`. -/
def arrayInterface : List Value → Option Error → List GoAny × Option Error
  | [], sv => ([], sv)
  | x :: xs, sv =>
    ((valueInterface x sv).1 :: (arrayInterface xs (valueInterface x sv).2).1,
      (arrayInterface xs (valueInterface x sv).2).2)
/-- The decoder's `objectInterface`, from the map built so far. -/
def objectInterface : List (String × Value) → List (String × GoAny) → Option Error →
    List (String × GoAny) × Option Error
  | [], m, sv => (m, sv)
  | (k, x) :: ms, m, sv =>
    objectInterface ms (GoMap.set m k (valueInterface x sv).1) (valueInterface x sv).2
end

/-- The name of a JSON kind in the `Value` field of an `UnmarshalTypeError`. -/
def kindName : Value → String
  | Value.null => "null"
  | Value.bool _ => "bool"
  | Value.number _ => "number"
  | Value.string _ => "string"
  | Value.array _ => "array"
  | Value.object _ => "object"

/-- The decoder's `value` on a location of type `string`: a string is stored, `null` leaves
the location as it is, anything else saves a type error. -/
def valueString (x : Value) (cur : String) (sv : Option Error) : String × Option Error :=
  match x with
  | Value.string s => (s, sv)
  | Value.null => (cur, sv)
  | other => (cur, saveError sv (Error.UnmarshalTypeError (kindName other) "string"))

/-- The member loop of the decoder's `object` on a `map[string]string`: every element starts
as the empty string, is decoded as a string, and is stored under its key. -/
def objectMapString : List (String × Value) → GoMap String → Option Error →
    GoMap String × Option Error
  | [], m, sv => (m, sv)
  | (k, x) :: ms, m, sv =>
    objectMapString ms (GoMap.set m k (valueString x "" sv).1) (valueString x "" sv).2

/-- The decoder's `value` on a location of type `map[string]string`: `null` stores the `nil`
map, an object fills the map (made first when it is `nil`), anything else saves a type
error. -/
def valueMapString (x : Value) (cur : Option (GoMap String)) (sv : Option Error) :
    Option (GoMap String) × Option Error :=
  match x with
  | Value.null => (none, sv)
  | Value.object ms =>
    (some (objectMapString ms (cur.getD []) sv).1, (objectMapString ms (cur.getD []) sv).2)
  | other => (cur, saveError sv (Error.UnmarshalTypeError (kindName other) "map[string]string"))

/-- The decoder's `value` on a location of type `map[string]any`. -/
def valueMapAny (x : Value) (cur : Option (GoMap GoAny)) (sv : Option Error) :
    Option (GoMap GoAny) × Option Error :=
  match x with
  | Value.null => (none, sv)
  | Value.object ms =>
    (some (objectInterface ms (cur.getD []) sv).1, (objectInterface ms (cur.getD []) sv).2)
  | other =>
    (cur, saveError sv (Error.UnmarshalTypeError (kindName other) "map[string]interface {}"))

/-- The decoder's `foldRune` as far as it matters for names written in ASCII letters: a small
ASCII letter becomes the capital one, and the only two other characters whose case orbit holds
an ASCII letter, U+017F (long s) and U+212A (Kelvin sign), become `S` and `K`. Every other
character folds to a character outside ASCII; it is left as it is. -/
def foldRune (c : Char) : Char :=
  if decide ('a' ≤ c) && decide (c ≤ 'z') then Char.ofNat (c.toNat - 32)
  else if c = Char.ofNat 0x17F then 'S'
  else if c = Char.ofNat 0x212A then 'K'
  else c

/-- The decoder's `foldName`. -/
def foldName (s : String) : String := String.mk (s.toList.map foldRune)

/-- The three fields of `ExecutionRequestBody`. -/
inductive Field where
  | Args
  | Options
  | Input
deriving DecidableEq, Repr

/-- The JSON names of the fields, from the struct tags. -/
def fieldNames : GoMap Field :=
  [("args", Field.Args), ("options", Field.Options), ("input", Field.Input)]

/-- The field an object key selects: the field with exactly that name (`byExactName`), else
the field whose folded name is the folded key (`byFoldedName`), else none. -/
def findField (key : String) : Option Field :=
  match GoMap.get fieldNames key with
  | some f => some f
  | none => GoMap.get (fieldNames.map (fun nf => (foldName nf.1, nf.2))) (foldName key)

/-- The member loop of the decoder's `object` on the struct: a member whose key selects a
field is decoded into that field, any other member is skipped. -/
def objectStruct : List (String × Value) → odmplugin.ExecutionRequestBody → Option Error →
    odmplugin.ExecutionRequestBody × Option Error
  | [], v, sv => (v, sv)
  | (k, x) :: ms, v, sv =>
    match findField k with
    | some Field.Args =>
      objectStruct ms ⟨(valueMapString x v.Args sv).1, v.Options, v.Input⟩
        (valueMapString x v.Args sv).2
    | some Field.Options =>
      objectStruct ms ⟨v.Args, (valueMapAny x v.Options sv).1, v.Input⟩
        (valueMapAny x v.Options sv).2
    | some Field.Input =>
      objectStruct ms ⟨v.Args, v.Options, (valueString x v.Input sv).1⟩
        (valueString x v.Input sv).2
    | none => objectStruct ms v sv

/-- The decoder's `value` on the struct: `null` leaves it as it is, an object is decoded member
by member, anything else saves a type error. -/
def valueStruct (x : Value) (v : odmplugin.ExecutionRequestBody) (sv : Option Error) :
    odmplugin.ExecutionRequestBody × Option Error :=
  match x with
  | Value.null => (v, sv)
  | Value.object ms => objectStruct ms v sv
  | other =>
    (v, saveError sv (Error.UnmarshalTypeError (kindName other) "odmplugin.ExecutionRequestBody"))

/-- The function `json.Unmarshal(data, v)` for `v` a pointer to an `ExecutionRequestBody`:
the struct after the call and the returned error. -/
def Unmarshal (data : GoString) (v : odmplugin.ExecutionRequestBody) :
    odmplugin.ExecutionRequestBody × Option Error :=
  match parse data with
  | none => (v, some (Error.SyntaxError data))
  | some x => valueStruct x v none

end json

/-! ## log -/

namespace log

/-- An argument of the one `log.Printf` call in the repository. -/
inductive Arg where
  | mapString (m : Option (GoMap String))
  | string (s : String)
  | mapAny (m : Option (GoMap GoAny))

/-- One call of the standard logger: the format (or the line, for `Println`) and the
arguments. The text the logger writes is not modelled. -/
structure Entry where
  format : String
  args : List Arg

end log

/-- The state outside a call that the sample touches: what has been handed to the standard
logger, oldest first. -/
structure World where
  logged : List log.Entry

/-- The function `log.Printf`. -/
def log.Printf (format : String) (args : List log.Arg) (w : World) : World :=
  ⟨w.logged ++ [⟨format, args⟩]⟩

/-- The function `log.Println`. -/
def log.Println (line : String) (w : World) : World :=
  ⟨w.logged ++ [⟨line, []⟩]⟩

/-! ## example/sample.go -/

namespace sample

/-- The struct `ExecuterImpl`; its embedded `plugin.Plugin` is `nil` and never read. -/
structure ExecuterImpl where
deriving DecidableEq, Repr

/-- The method `(*ExecuterImpl).Execute`. -/
def ExecuterImpl.Execute (_g : ExecuterImpl) (_ctx : context.Context) (body : GoString)
    (w : World) : (String × Option json.Error) × World :=
  let requestBody : odmplugin.ExecutionRequestBody := ⟨none, none, ""⟩
  let r := json.Unmarshal body requestBody
  match r.2 with
  | some err => (("", some err), w)
  | none =>
    (("Success", none),
      log.Printf "Plugin: Execute called with body: \n\tArguments:%s\n\tInput: %s\n\tOptions: %s"
        [log.Arg.mapString r.1.Args, log.Arg.string r.1.Input, log.Arg.mapAny r.1.Options] w)

/-- The value `&ExecuterImpl` as an `Executer`: the method always returns. -/
def ExecuterImpl.Executer (g : ExecuterImpl) : odmplugin.Executer World json.Error :=
  ⟨fun ctx body w => some (g.Execute ctx body w)⟩

/-- The local variable `handshakeConfig` of `main`. -/
def main.handshakeConfig : plugin.HandshakeConfig := odmplugin.HandshakeConfig

/-- The local variable `pluginMap` of `main`. -/
def main.pluginMap : GoMap (odmplugin.Plugin World json.Error) :=
  [("executer", odmplugin.Plugin.ExecuterPlugin ⟨some (ExecuterImpl.Executer ⟨⟩)⟩)]

/-- The function `main` up to its call of `plugin.Serve`, which does not return while the
plugin serves: the configuration handed to `plugin.Serve` and the world at that point. -/
def main (w : World) : plugin.ServeConfig (odmplugin.Plugin World json.Error) × World :=
  let w1 := log.Println "Starting Tester plugin..." w
  (⟨main.handshakeConfig, main.pluginMap⟩, w1)

/-- The request body of the spec's example. -/
def exampleBody : GoString :=
  GoString.ofString "\x7b\"args\":\x7b\"a\":\"1\"\x7d,\"options\":\x7b\x7d,\"input\":\"hi\"\x7d"

/-- The body `{"input":"a\xffb"}`: the byte `0xFF` stands inside the string literal, so the
body is not well-formed UTF-8. -/
def invalidUTF8Body : GoString :=
  GoString.ofString "\x7b\"input\":\"a" ++ [0xFF] ++ GoString.ofString "b\"\x7d"

end sample

/-! ## The transport between the two stubs -/

namespace rpc

/-- Modelled from the spec: the transport between the stubs (package `net/rpc` under
go-plugin, not part of the repository) as a faithful call. A call of `"Plugin.Execute"` hands
the argument and the reply location to the registered server stub and returns what the stub
leaves in the location and the stub's error; a call of any other method leaves the location
as it is and returns the error `unknownMethod`. The state is the state of the implementation
behind the stub together with the list of the calls made so far, oldest first. -/
def faithful {σ ε : Type} (srv : odmplugin.ExecuterRPCServer σ ε) (unknownMethod : ε) :
    Client (σ × List (String × GoString)) ε :=
  ⟨fun serviceMethod args reply t =>
    if serviceMethod = "Plugin.Execute" then
      match srv.Execute args reply t.1 with
      | none => none
      | some (out, s') => some (out, (s', t.2 ++ [(serviceMethod, args)]))
    else some ((reply, some unknownMethod), (t.1, t.2 ++ [(serviceMethod, args)]))⟩

end rpc

/-! ## Implementations used as concrete inputs -/

namespace probe

/-- An implementation that looks at its context: it fails with error `0` on a context that is
done, and otherwise counts the call and answers `"pong"`. -/
def contextAware : odmplugin.Executer Nat Nat :=
  ⟨fun ctx _body n =>
    if ctx.done then some (("late", some 0), n) else some (("pong", none), n + 1)⟩

/-- An implementation that ignores its context: it counts the call and answers `"pong"`. -/
def contextBlind : odmplugin.Executer Nat Nat :=
  ⟨fun _ctx _body n => some (("pong", none), n + 1)⟩

/-- An implementation that fails on the empty body, with error `7` and a non-empty result
string beside it, and answers any other body with `"pong"`. -/
def failsOnEmpty : odmplugin.Executer Nat Nat :=
  ⟨fun _ctx body n =>
    if body = [] then some (("partial", some 7), n + 1) else some (("pong", none), n + 1)⟩

/-- A context that has been cancelled. -/
def cancelled : context.Context := ⟨true, none, []⟩

end probe

/-! ## Theorems: the JSON scanner -/

namespace json

/-! ### What the parser accepts is in the grammar -/

theorem isSpace_iff (c : UInt8) : isSpace c = true ↔ (c = ' '.toUInt8 ∨ c = '\t'.toUInt8 ∨ c = '\n'.toUInt8 ∨ c = '\r'.toUInt8) := by
  simp only [isSpace, Bool.or_eq_true, decide_eq_true_eq]
  tauto

theorem isDigit_iff (c : UInt8) : isDigit c = true ↔ grammar.digit c := by
  simp [isDigit, grammar.digit]

theorem isHex_iff (c : UInt8) : isHex c = true ↔ grammar.hexdig c := by
  simp only [isHex, Bool.or_eq_true, Bool.and_eq_true, decide_eq_true_eq, isDigit_iff,
    grammar.hexdig]
  tauto

theorem skipSpace_spec (cs : GoString) : ∃ w, cs = w ++ skipSpace cs ∧ grammar.ws w := by
  induction cs with
  | nil => exact ⟨[], rfl, by simp [grammar.ws]⟩
  | cons c cs ih =>
    unfold skipSpace
    by_cases hc : isSpace c = true
    · obtain ⟨w, hw, hws⟩ := ih
      refine ⟨c :: w, ?_, ?_⟩
      · simp only [hc, if_true, List.cons_append]; rw [← hw]
      · intro x hx
        rcases List.mem_cons.1 hx with rfl | hx
        · exact (isSpace_iff _).1 hc
        · exact hws x hx
    · exact ⟨[], by simp [hc], by simp [grammar.ws]⟩

theorem scanString_sound_aux : ∀ (n : Nat) (cs raw r : GoString), cs.length ≤ n →
    scanString cs = some (raw, r) → cs = raw ++ '"'.toUInt8 :: r ∧ grammar.chars raw := by
  intro n
  induction n with
  | zero =>
    intro cs raw r hn h
    cases cs with
    | nil => simp [scanString] at h
    | cons c cs => simp at hn
  | succ n ih =>
    intro cs raw r hn h
    cases cs with
    | nil => simp [scanString] at h
    | cons c cs =>
      simp only [List.length_cons, Nat.add_le_add_iff_right] at hn
      rw [scanString.eq_def] at h
      simp only at h
      by_cases hq : c = '"'.toUInt8
      · simp only [hq, if_true, Option.some.injEq, Prod.mk.injEq] at h
        obtain ⟨rfl, rfl⟩ := h
        exact ⟨by simp [hq], grammar.chars.nil⟩
      · simp only [hq, if_false] at h
        by_cases hb : c = '\\'.toUInt8
        · simp only [hb, if_true] at h
          cases cs with
          | nil => simp at h
          | cons e cs1 =>
            simp only at h
            by_cases hu : e = 'u'.toUInt8
            · simp only [hu, if_true] at h
              match cs1, hn, h with
              | h1 :: h2 :: h3 :: h4 :: cs2, hn, h =>
                simp only at h
                by_cases hh : (isHex h1 && isHex h2 && isHex h3 && isHex h4) = true
                · simp only [hh, if_true] at h
                  cases hs : scanString cs2 with
                  | none => simp [hs] at h
                  | some p =>
                    obtain ⟨raw', r'⟩ := p
                    simp only [hs, Option.some.injEq, Prod.mk.injEq] at h
                    obtain ⟨rfl, rfl⟩ := h
                    obtain ⟨e1, e2⟩ := ih cs2 raw' r' (by simp at hn; omega) hs
                    simp only [Bool.and_eq_true, isHex_iff] at hh
                    exact ⟨by simp [hb, hu, e1],
                      grammar.chars.unicode _ _ _ _ _ hh.1.1.1 hh.1.1.2 hh.1.2 hh.2 e2⟩
                · simp [hh] at h
              | [], _, h => simp at h
              | [_], _, h => simp at h
              | [_, _], _, h => simp at h
              | [_, _, _], _, h => simp at h
            · simp only [hu, if_false] at h
              by_cases he : (e = '"'.toUInt8 || e = '\\'.toUInt8 || e = '/'.toUInt8 || e = 'b'.toUInt8 || e = 'f'.toUInt8 || e = 'n'.toUInt8
                  || e = 'r'.toUInt8 || e = 't'.toUInt8) = true
              · simp only [he, if_true] at h
                cases hs : scanString cs1 with
                | none => simp [hs] at h
                | some p =>
                  obtain ⟨raw', r'⟩ := p
                  simp only [hs, Option.some.injEq, Prod.mk.injEq] at h
                  obtain ⟨rfl, rfl⟩ := h
                  obtain ⟨e1, e2⟩ := ih cs1 raw' r' (by simp at hn; omega) hs
                  simp only [Bool.or_eq_true, decide_eq_true_eq] at he
                  exact ⟨by simp [hb, e1], grammar.chars.escape _ _ (by tauto) e2⟩
              · simp [he] at h
        · simp only [hb, if_false] at h
          by_cases hlt : c.toNat < 0x20
          · simp [hlt] at h
          · simp only [hlt, if_false] at h
            cases hs : scanString cs with
            | none => simp [hs] at h
            | some p =>
              obtain ⟨raw', r'⟩ := p
              simp only [hs, Option.some.injEq, Prod.mk.injEq] at h
              obtain ⟨rfl, rfl⟩ := h
              obtain ⟨e1, e2⟩ := ih cs raw' r' hn hs
              exact ⟨by simp [e1], grammar.chars.unescaped _ _ (by omega) hq hb e2⟩

theorem scanString_sound (cs raw r : GoString) (h : scanString cs = some (raw, r)) :
    cs = raw ++ '"'.toUInt8 :: r ∧ grammar.chars raw :=
  scanString_sound_aux cs.length cs raw r (le_refl _) h


theorem takeDigits_spec (cs : GoString) :
    cs = (takeDigits cs).1 ++ (takeDigits cs).2 ∧ ∀ c ∈ (takeDigits cs).1, grammar.digit c := by
  induction cs with
  | nil => simp [takeDigits]
  | cons c cs ih =>
    rw [takeDigits]
    by_cases hc : isDigit c = true
    · simp only [hc, if_true, List.cons_append, List.mem_cons]
      refine ⟨by rw [← ih.1], ?_⟩
      rintro x (rfl | hx)
      · exact (isDigit_iff _).1 hc
      · exact ih.2 x hx
    · simp [hc]

theorem one_le_of_digit_ne_zero (c : UInt8) (h : grammar.digit c) (h0 : c ≠ '0'.toUInt8) :
    '1'.toUInt8 ≤ c := by
  obtain ⟨h1, _⟩ := h
  have hv : c.toNat ≠ '0'.toUInt8.toNat := fun hv => h0 (UInt8.toNat.inj hv)
  rw [UInt8.le_def, BitVec.le_def] at h1 ⊢
  have e0 : ('0'.toUInt8).toBitVec.toNat = 48 := rfl
  have e1 : ('1'.toUInt8).toBitVec.toNat = 49 := rfl
  have e2 : ('0'.toUInt8).toNat = 48 := rfl
  have e3 : c.toBitVec.toNat = c.toNat := rfl
  omega

theorem scanInt_sound (cs i r : GoString) (h : scanInt cs = some (i, r)) :
    cs = i ++ r ∧ grammar.int i := by
  cases cs with
  | nil => simp [scanInt] at h
  | cons c cs =>
    rw [scanInt] at h
    by_cases h0 : c = '0'.toUInt8
    · simp only [h0, if_true, Option.some.injEq, Prod.mk.injEq] at h
      obtain ⟨rfl, rfl⟩ := h
      exact ⟨by simp [h0], Or.inl rfl⟩
    · simp only [h0, if_false] at h
      by_cases hd : isDigit c = true
      · simp only [hd, if_true, Option.some.injEq, Prod.mk.injEq] at h
        obtain ⟨rfl, rfl⟩ := h
        have hs := takeDigits_spec cs
        have hdig := (isDigit_iff c).1 hd
        refine ⟨by simp only [List.cons_append]; rw [← hs.1], Or.inr ⟨c, _, rfl, ?_, hdig.2, hs.2⟩⟩
        exact one_le_of_digit_ne_zero c hdig h0
      · simp [hd] at h

theorem takeDigits_cons_digits (cs d ds r : GoString) (x : UInt8)
    (h : takeDigits cs = (x :: ds, r)) (hd : d = x :: ds) : cs = d ++ r ∧ grammar.digits d := by
  have hs := takeDigits_spec cs
  rw [h] at hs
  subst hd
  exact ⟨hs.1, by simp, hs.2⟩

theorem scanFrac_sound (cs f r : GoString) (h : scanFrac cs = some (f, r)) :
    cs = f ++ r ∧ (f = [] ∨ grammar.frac f) := by
  cases cs with
  | nil =>
    simp only [scanFrac, Option.some.injEq, Prod.mk.injEq] at h
    obtain ⟨rfl, rfl⟩ := h
    exact ⟨rfl, Or.inl rfl⟩
  | cons c cs =>
    rw [scanFrac] at h
    by_cases hp : c = '.'.toUInt8
    · simp only [hp, if_true] at h
      cases ht : takeDigits cs with
      | mk ds r' =>
        cases ds with
        | nil => simp [ht] at h
        | cons d ds =>
          simp only [ht, Option.some.injEq, Prod.mk.injEq] at h
          obtain ⟨rfl, rfl⟩ := h
          obtain ⟨e1, e2⟩ := takeDigits_cons_digits cs (d :: ds) ds r' d ht rfl
          exact ⟨by rw [hp, e1]; rfl, Or.inr ⟨d :: ds, rfl, e2⟩⟩
    · simp only [hp, if_false, Option.some.injEq, Prod.mk.injEq] at h
      obtain ⟨rfl, rfl⟩ := h
      exact ⟨rfl, Or.inl rfl⟩

theorem scanExpDigits_sound (pre cs e r : GoString) (h : scanExpDigits pre cs = some (e, r)) :
    ∃ ds, e = pre ++ ds ∧ cs = ds ++ r ∧ grammar.digits ds := by
  unfold scanExpDigits at h
  cases ht : takeDigits cs with
  | mk ds r' =>
    cases ds with
    | nil => simp [ht] at h
    | cons d ds =>
      simp only [ht, Option.some.injEq, Prod.mk.injEq] at h
      obtain ⟨rfl, rfl⟩ := h
      obtain ⟨e1, e2⟩ := takeDigits_cons_digits cs (d :: ds) ds r' d ht rfl
      exact ⟨d :: ds, rfl, e1, e2⟩

theorem scanExp_sound (cs e r : GoString) (h : scanExp cs = some (e, r)) :
    cs = e ++ r ∧ (e = [] ∨ grammar.exp e) := by
  cases cs with
  | nil =>
    simp only [scanExp, Option.some.injEq, Prod.mk.injEq] at h
    obtain ⟨rfl, rfl⟩ := h
    exact ⟨rfl, Or.inl rfl⟩
  | cons c cs =>
    rw [scanExp.eq_def] at h
    simp only at h
    by_cases hc : (c = 'e'.toUInt8 || c = 'E'.toUInt8) = true
    · simp only [hc, if_true] at h
      have hc' : c = 'e'.toUInt8 ∨ c = 'E'.toUInt8 := by simpa using hc
      cases cs with
      | nil => simp at h
      | cons s cs1 =>
        simp only at h
        by_cases hs : (s = '+'.toUInt8 || s = '-'.toUInt8) = true
        · simp only [hs, if_true] at h
          have hs' : s = '+'.toUInt8 ∨ s = '-'.toUInt8 := by simpa using hs
          obtain ⟨ds, e1, e2, e3⟩ := scanExpDigits_sound _ _ _ _ h
          refine ⟨by rw [e1, e2]; rfl, Or.inr ⟨c, [s], ds, by rw [e1]; rfl, hc', ?_, e3⟩⟩
          rcases hs' with rfl | rfl <;> simp
        · simp only [hs, if_false] at h
          obtain ⟨ds, e1, e2, e3⟩ := scanExpDigits_sound _ _ _ _ h
          exact ⟨by rw [e1, e2]; rfl, Or.inr ⟨c, [], ds, by rw [e1]; rfl, hc', Or.inl rfl, e3⟩⟩
    · simp only [hc, if_false, Option.some.injEq, Prod.mk.injEq] at h
      obtain ⟨rfl, rfl⟩ := h
      exact ⟨rfl, Or.inl rfl⟩

theorem scanNumber_sound (cs lit r : GoString) (h : scanNumber cs = some (lit, r)) :
    cs = lit ++ r ∧ grammar.number lit := by
  unfold scanNumber at h
  simp only at h
  generalize hsg : (match cs with
    | [] => (([] : GoString), ([] : GoString))
    | c :: r => if c = '-'.toUInt8 then ([c], r) else ([], c :: r)) = signed at h
  have hsigned : cs = signed.1 ++ signed.2 ∧ (signed.1 = [] ∨ signed.1 = ['-'.toUInt8]) := by
    cases cs with
    | nil => simp at hsg; subst hsg; simp
    | cons c r' =>
      simp only at hsg
      by_cases hm : c = '-'.toUInt8
      · simp only [hm, if_true] at hsg; subst hsg; simp [hm]
      · simp only [hm, if_false] at hsg; subst hsg; simp
  cases hi : scanInt signed.2 with
  | none => simp [hi] at h
  | some p =>
    obtain ⟨i, cs2⟩ := p
    simp only [hi] at h
    cases hf : scanFrac cs2 with
    | none => simp [hf] at h
    | some p =>
      obtain ⟨f, cs3⟩ := p
      simp only [hf] at h
      cases he : scanExp cs3 with
      | none => simp [he] at h
      | some p =>
        obtain ⟨e, cs4⟩ := p
        simp only [he, Option.some.injEq, Prod.mk.injEq] at h
        obtain ⟨rfl, rfl⟩ := h
        obtain ⟨i1, i2⟩ := scanInt_sound _ _ _ hi
        obtain ⟨f1, f2⟩ := scanFrac_sound _ _ _ hf
        obtain ⟨x1, x2⟩ := scanExp_sound _ _ _ he
        refine ⟨?_, signed.1, i, f, e, rfl, hsigned.2, i2, f2, x2⟩
        rw [hsigned.1, i1, f1, x1]
        simp only [List.append_assoc]

theorem literal_sound (word : GoString) (v v' : Value) (cs r : GoString)
    (h : literal word v cs = some (v', r)) : cs = word ++ r ∧ v' = v := by
  unfold literal at h
  by_cases hw : cs.take word.length = word
  · simp only [hw, if_true, Option.some.injEq, Prod.mk.injEq] at h
    obtain ⟨rfl, rfl⟩ := h
    refine ⟨?_, rfl⟩
    conv_lhs => rw [← List.take_append_drop word.length cs]
    rw [hw]
  · simp [hw] at h


theorem ws_nil : grammar.ws [] := by simp [grammar.ws]

theorem ws_append {a b : GoString} (ha : grammar.ws a) (hb : grammar.ws b) :
    grammar.ws (a ++ b) := by
  intro c hc
  rcases List.mem_append.1 hc with h | h
  · exact ha c h
  · exact hb c h

theorem string_of_chars {raw : GoString} (h : grammar.chars raw) :
    grammar.string ('"'.toUInt8 :: (raw ++ ['"'.toUInt8])) := ⟨raw, rfl, h⟩

theorem parse_sound_aux (fuel : Nat) :
    (∀ depth cs v r, parseValue fuel depth cs = some (v, r) →
        ∃ t, cs = t ++ r ∧ grammar.value t)
      ∧ (∀ depth cs ms r, parseMembers fuel depth cs = some (ms, r) →
        ∃ t, cs = t ++ '}'.toUInt8 :: r ∧ ∀ w, grammar.ws w → grammar.members (w ++ t))
      ∧ (∀ depth cs xs r, parseElements fuel depth cs = some (xs, r) →
        ∃ t, cs = t ++ ']'.toUInt8 :: r ∧ ∀ w, grammar.ws w → grammar.elements (w ++ t)) := by
  induction fuel with
  | zero =>
    refine ⟨?_, ?_, ?_⟩ <;> intro depth cs v r h
    · simp [parseValue] at h
    · simp [parseMembers] at h
    · simp [parseElements] at h
  | succ fuel ih =>
    obtain ⟨ihV, ihM, ihE⟩ := ih
    refine ⟨?_, ?_, ?_⟩
    · intro depth cs v r h
      cases cs with
      | nil => simp [parseValue] at h
      | cons c rest =>
        rw [parseValue] at h
        by_cases hobj : c = '{'.toUInt8
        · simp only [hobj, if_true] at h
          by_cases hd : maxNestingDepth < depth + 1
          · simp [hd] at h
          · simp only [hd, if_false] at h
            obtain ⟨w, hw, hws⟩ := skipSpace_spec rest
            cases hsk : skipSpace rest with
            | nil => simp [hsk] at h
            | cons c1 rest1 =>
              simp only [hsk] at h
              rw [hsk] at hw
              by_cases hclose : c1 = '}'.toUInt8
              · simp only [hclose, if_true, Option.some.injEq, Prod.mk.injEq] at h
                obtain ⟨rfl, rfl⟩ := h
                refine ⟨'{'.toUInt8 :: (w ++ ['}'.toUInt8]), ?_, grammar.value.emptyObject w hws⟩
                simp [hobj, hw, hclose]
              · simp only [hclose, if_false] at h
                cases hm : parseMembers fuel (depth + 1) (c1 :: rest1) with
                | none => simp [hm] at h
                | some p =>
                  obtain ⟨ms, r'⟩ := p
                  simp only [hm, Option.some.injEq, Prod.mk.injEq] at h
                  obtain ⟨rfl, rfl⟩ := h
                  obtain ⟨t, ht, hmem⟩ := ihM _ _ _ _ hm
                  refine ⟨'{'.toUInt8 :: ((w ++ t) ++ ['}'.toUInt8]), ?_, grammar.value.object _ (hmem w hws)⟩
                  simp [hobj, hw, ht]
        · simp only [hobj, if_false] at h
          by_cases harr : c = '['.toUInt8
          · simp only [harr, if_true] at h
            by_cases hd : maxNestingDepth < depth + 1
            · simp [hd] at h
            · simp only [hd, if_false] at h
              obtain ⟨w, hw, hws⟩ := skipSpace_spec rest
              cases hsk : skipSpace rest with
              | nil => simp [hsk] at h
              | cons c1 rest1 =>
                simp only [hsk] at h
                rw [hsk] at hw
                by_cases hclose : c1 = ']'.toUInt8
                · simp only [hclose, if_true, Option.some.injEq, Prod.mk.injEq] at h
                  obtain ⟨rfl, rfl⟩ := h
                  refine ⟨'['.toUInt8 :: (w ++ [']'.toUInt8]), ?_, grammar.value.emptyArray w hws⟩
                  simp [harr, hw, hclose]
                · simp only [hclose, if_false] at h
                  cases hm : parseElements fuel (depth + 1) (c1 :: rest1) with
                  | none => simp [hm] at h
                  | some p =>
                    obtain ⟨xs, r'⟩ := p
                    simp only [hm, Option.some.injEq, Prod.mk.injEq] at h
                    obtain ⟨rfl, rfl⟩ := h
                    obtain ⟨t, ht, hmem⟩ := ihE _ _ _ _ hm
                    refine ⟨'['.toUInt8 :: ((w ++ t) ++ [']'.toUInt8]), ?_, grammar.value.array _ (hmem w hws)⟩
                    simp [harr, hw, ht]
          · simp only [harr, if_false] at h
            by_cases hstr : c = '"'.toUInt8
            · simp only [hstr, if_true] at h
              cases hs : scanString rest with
              | none => simp [hs] at h
              | some p =>
                obtain ⟨raw, r'⟩ := p
                simp only [hs, Option.some.injEq, Prod.mk.injEq] at h
                obtain ⟨rfl, rfl⟩ := h
                obtain ⟨e1, e2⟩ := scanString_sound _ _ _ hs
                refine ⟨'"'.toUInt8 :: (raw ++ ['"'.toUInt8]), ?_, grammar.value.string _ (string_of_chars e2)⟩
                simp [hstr, e1]
            · simp only [hstr, if_false] at h
              by_cases hnum : (c = '-'.toUInt8 || isDigit c) = true
              · simp only [hnum, if_true] at h
                cases hs : scanNumber (c :: rest) with
                | none => simp [hs] at h
                | some p =>
                  obtain ⟨lit, r'⟩ := p
                  simp only [hs, Option.some.injEq, Prod.mk.injEq] at h
                  obtain ⟨rfl, rfl⟩ := h
                  obtain ⟨e1, e2⟩ := scanNumber_sound _ _ _ hs
                  exact ⟨lit, e1, grammar.value.number _ e2⟩
              · simp only [hnum, if_false] at h
                by_cases ht : c = 't'.toUInt8
                · simp only [ht, if_true] at h
                  obtain ⟨e1, e2⟩ := literal_sound _ _ _ _ _ h
                  exact ⟨_, by rw [ht]; exact e1, grammar.value.true⟩
                · simp only [ht, if_false] at h
                  by_cases hf : c = 'f'.toUInt8
                  · simp only [hf, if_true] at h
                    obtain ⟨e1, e2⟩ := literal_sound _ _ _ _ _ h
                    exact ⟨_, by rw [hf]; exact e1, grammar.value.false⟩
                  · simp only [hf, if_false] at h
                    by_cases hn : c = 'n'.toUInt8
                    · simp only [hn, if_true] at h
                      obtain ⟨e1, e2⟩ := literal_sound _ _ _ _ _ h
                      exact ⟨_, by rw [hn]; exact e1, grammar.value.null⟩
                    · simp [hn] at h
    · intro depth cs ms r h
      cases cs with
      | nil => simp [parseMembers] at h
      | cons q rest =>
        rw [parseMembers] at h
        by_cases hq : q = '"'.toUInt8
        · simp only [hq, if_true] at h
          cases hs : scanString rest with
          | none => simp [hs] at h
          | some p =>
            obtain ⟨raw, r1⟩ := p
            simp only [hs] at h
            obtain ⟨k1, k2⟩ := scanString_sound _ _ _ hs
            obtain ⟨w2, hw2, hws2⟩ := skipSpace_spec r1
            cases hsk : skipSpace r1 with
            | nil => simp [hsk] at h
            | cons colon r2 =>
              simp only [hsk] at h
              rw [hsk] at hw2
              by_cases hcol : colon = ':'.toUInt8
              · simp only [hcol, if_true] at h
                obtain ⟨w3, hw3, hws3⟩ := skipSpace_spec r2
                cases hv : parseValue fuel depth (skipSpace r2) with
                | none => simp [hv] at h
                | some p =>
                  obtain ⟨v, r3⟩ := p
                  simp only [hv] at h
                  obtain ⟨tv, htv, hval⟩ := ihV _ _ _ _ hv
                  obtain ⟨w4, hw4, hws4⟩ := skipSpace_spec r3
                  cases hsk3 : skipSpace r3 with
                  | nil => simp [hsk3] at h
                  | cons sep r4 =>
                    simp only [hsk3] at h
                    rw [hsk3] at hw4
                    have hkey : grammar.string ('"'.toUInt8 :: (raw ++ ['"'.toUInt8])) := string_of_chars k2
                    have hcs : q :: rest = ('"'.toUInt8 :: (raw ++ ['"'.toUInt8])) ++ w2 ++ ':'.toUInt8 ::
                        (w3 ++ tv ++ w4) ++ sep :: r4 := by
                      rw [hq, k1, hw2, hcol, hw3, htv, hw4]
                      simp
                    by_cases hcomma : sep = ','.toUInt8
                    · simp only [hcomma, if_true] at h
                      obtain ⟨w5, hw5, hws5⟩ := skipSpace_spec r4
                      cases hm : parseMembers fuel depth (skipSpace r4) with
                      | none => simp [hm] at h
                      | some p =>
                        obtain ⟨ms', r5⟩ := p
                        simp only [hm, Option.some.injEq, Prod.mk.injEq] at h
                        obtain ⟨rfl, rfl⟩ := h
                        obtain ⟨tm, htm, hmem⟩ := ihM _ _ _ _ hm
                        refine ⟨('"'.toUInt8 :: (raw ++ ['"'.toUInt8])) ++ w2 ++ ':'.toUInt8 :: (w3 ++ tv ++ w4) ++
                          ','.toUInt8 :: (w5 ++ tm), ?_, ?_⟩
                        · rw [hcs, hcomma, hw5, htm]; simp
                        · intro w hw
                          have := grammar.members.cons w _ w2 w3 tv w4 (w5 ++ tm) hw hkey hws2 hws3
                            hval hws4 (hmem w5 hws5)
                          simpa using this
                    · simp only [hcomma, if_false] at h
                      by_cases hclose : sep = '}'.toUInt8
                      · simp only [hclose, if_true, Option.some.injEq, Prod.mk.injEq] at h
                        obtain ⟨rfl, rfl⟩ := h
                        refine ⟨('"'.toUInt8 :: (raw ++ ['"'.toUInt8])) ++ w2 ++ ':'.toUInt8 :: (w3 ++ tv ++ w4), ?_, ?_⟩
                        · rw [hcs, hclose]
                        · intro w hw
                          have := grammar.members.one w _ w2 w3 tv w4 hw hkey hws2 hws3 hval hws4
                          simpa using this
                      · simp [hclose] at h
              · simp [hcol] at h
        · simp [hq] at h
    · intro depth cs xs r h
      rw [parseElements] at h
      cases hv : parseValue fuel depth cs with
      | none => simp [hv] at h
      | some p =>
        obtain ⟨v, r1⟩ := p
        simp only [hv] at h
        obtain ⟨tv, htv, hval⟩ := ihV _ _ _ _ hv
        obtain ⟨w2, hw2, hws2⟩ := skipSpace_spec r1
        cases hsk : skipSpace r1 with
        | nil => simp [hsk] at h
        | cons sep r2 =>
          simp only [hsk] at h
          rw [hsk] at hw2
          by_cases hcomma : sep = ','.toUInt8
          · simp only [hcomma, if_true] at h
            obtain ⟨w3, hw3, hws3⟩ := skipSpace_spec r2
            cases hm : parseElements fuel depth (skipSpace r2) with
            | none => simp [hm] at h
            | some p =>
              obtain ⟨xs', r3⟩ := p
              simp only [hm, Option.some.injEq, Prod.mk.injEq] at h
              obtain ⟨rfl, rfl⟩ := h
              obtain ⟨te, hte, hel⟩ := ihE _ _ _ _ hm
              refine ⟨tv ++ w2 ++ ','.toUInt8 :: (w3 ++ te), ?_, ?_⟩
              · rw [htv, hw2, hcomma, hw3, hte]; simp
              · intro w hw
                have := grammar.elements.cons w tv w2 (w3 ++ te) hw hval hws2 (hel w3 hws3)
                simpa using this
          · simp only [hcomma, if_false] at h
            by_cases hclose : sep = ']'.toUInt8
            · simp only [hclose, if_true, Option.some.injEq, Prod.mk.injEq] at h
              obtain ⟨rfl, rfl⟩ := h
              refine ⟨tv ++ w2, ?_, ?_⟩
              · rw [htv, hw2, hclose]; simp
              · intro w hw
                have := grammar.elements.one w tv w2 hw hval hws2
                simpa using this
            · simp [hclose] at h

theorem parse_sound (data : GoString) (v : Value) (h : parse data = some v) :
    grammar.text data := by
  unfold parse at h
  obtain ⟨w1, hw1, hws1⟩ := skipSpace_spec data
  cases hv : parseValue (2 * data.length + 1) 0 (skipSpace data) with
  | none => simp [hv] at h
  | some p =>
    obtain ⟨x, rest⟩ := p
    simp only [hv] at h
    obtain ⟨t, ht, hval⟩ := (parse_sound_aux _).1 _ _ _ _ hv
    obtain ⟨w2, hw2, hws2⟩ := skipSpace_spec rest
    cases hsk : skipSpace rest with
    | nil =>
      rw [hsk] at hw2
      refine ⟨w1, t, w2, ?_, hws1, hval, hws2⟩
      rw [hw1, ht, hw2]; simp
    | cons c r => simp [hsk] at h


/-- The bytes a value can start with. -/
theorem grammar.value_head (v : GoString) (h : grammar.value v) :
    ∃ c rest, v = c :: rest ∧ (c = 'n'.toUInt8 ∨ c = 't'.toUInt8 ∨ c = 'f'.toUInt8
      ∨ c = '-'.toUInt8 ∨ grammar.digit c ∨ c = '"'.toUInt8 ∨ c = '['.toUInt8
      ∨ c = '{'.toUInt8) := by
  cases h with
  | null => exact ⟨_, _, rfl, by simp⟩
  | true => exact ⟨_, _, rfl, by simp⟩
  | false => exact ⟨_, _, rfl, by simp⟩
  | number cs hn =>
    obtain ⟨minus, i, f, e, rfl, hm, hi, _, _⟩ := hn
    rcases hm with rfl | rfl
    · rcases hi with rfl | ⟨d, ds, rfl, h1, h9, _⟩
      · exact ⟨'0'.toUInt8, _, rfl,
          Or.inr (Or.inr (Or.inr (Or.inr (Or.inl ⟨by decide, by decide⟩))))⟩
      · refine ⟨d, _, rfl, Or.inr (Or.inr (Or.inr (Or.inr (Or.inl ⟨?_, h9⟩))))⟩
        exact UInt8.le_trans (show '0'.toUInt8 ≤ '1'.toUInt8 by decide) h1
    · exact ⟨'-'.toUInt8, _, rfl, by simp⟩
  | string cs hs =>
    obtain ⟨body, rfl, _⟩ := hs
    exact ⟨_, _, rfl, by simp⟩
  | emptyArray w _ => exact ⟨_, _, rfl, by simp⟩
  | array es _ => exact ⟨_, _, rfl, by simp⟩
  | emptyObject w _ => exact ⟨_, _, rfl, by simp⟩
  | object ms _ => exact ⟨_, _, rfl, by simp⟩

/-- A text whose first byte is neither white space nor one a value can start with is not
a text of the grammar. -/
theorem grammar.not_text_of_head (c : UInt8) (cs : GoString)
    (hws : ¬ (c = ' '.toUInt8 ∨ c = '\t'.toUInt8 ∨ c = '\n'.toUInt8 ∨ c = '\r'.toUInt8))
    (hc : ¬ (c = 'n'.toUInt8 ∨ c = 't'.toUInt8 ∨ c = 'f'.toUInt8 ∨ c = '-'.toUInt8
      ∨ grammar.digit c ∨ c = '"'.toUInt8 ∨ c = '['.toUInt8 ∨ c = '{'.toUInt8)) :
    ¬ grammar.text (c :: cs) := by
  rintro ⟨w1, v, w2, heq, hw1, hv, _⟩
  cases w1 with
  | nil =>
    obtain ⟨c', rest, rfl, hstart⟩ := grammar.value_head v hv
    simp only [List.nil_append, List.cons_append, List.cons.injEq] at heq
    exact hc (heq.1 ▸ hstart)
  | cons x w1 =>
    simp only [List.cons_append, List.cons.injEq] at heq
    exact hws (heq.1 ▸ hw1 x (List.mem_cons_self _ _))

/-! ### The bound on the number of calls is never reached -/

theorem skipSpace_length (cs : GoString) : (skipSpace cs).length ≤ cs.length := by
  obtain ⟨w, hw, _⟩ := skipSpace_spec cs
  have := congrArg List.length hw
  simp at this
  omega

theorem scanString_length (cs raw r : GoString) (h : scanString cs = some (raw, r)) :
    r.length < cs.length := by
  have := congrArg List.length (scanString_sound cs raw r h).1
  simp at this
  omega

theorem parseValue_length (fuel depth : Nat) (cs : GoString) (v : Value) (r : GoString)
    (h : parseValue fuel depth cs = some (v, r)) : r.length ≤ cs.length := by
  obtain ⟨t, ht, _⟩ := (parse_sound_aux fuel).1 depth cs v r h
  have := congrArg List.length ht
  simp at this
  omega

theorem parse_fuel_aux (fuel : Nat) :
    (∀ depth cs, 2 * cs.length < fuel →
        parseValue (fuel + 1) depth cs = parseValue fuel depth cs)
      ∧ (∀ depth cs, 2 * cs.length < fuel →
        parseMembers (fuel + 1) depth cs = parseMembers fuel depth cs)
      ∧ (∀ depth cs, 2 * cs.length + 1 < fuel →
        parseElements (fuel + 1) depth cs = parseElements fuel depth cs) := by
  induction fuel with
  | zero => exact ⟨fun _ _ h => absurd h (by omega), fun _ _ h => absurd h (by omega),
      fun _ _ h => absurd h (by omega)⟩
  | succ fuel ih =>
    obtain ⟨ihV, ihM, ihE⟩ := ih
    refine ⟨?_, ?_, ?_⟩
    · intro depth cs hlen
      cases cs with
      | nil => simp [parseValue]
      | cons c rest =>
        simp only [List.length_cons] at hlen
        conv_lhs => rw [parseValue]
        conv_rhs => rw [parseValue]
        have hsk := skipSpace_length rest
        cases hs : skipSpace rest with
        | nil => rfl
        | cons c1 rest1 =>
          rw [hs] at hsk
          simp only
          rw [ihM (depth + 1) (c1 :: rest1) (by omega), ihE (depth + 1) (c1 :: rest1) (by omega)]
    · intro depth cs hlen
      cases cs with
      | nil => simp [parseMembers]
      | cons q rest =>
        simp only [List.length_cons] at hlen
        conv_lhs => rw [parseMembers]
        conv_rhs => rw [parseMembers]
        by_cases hq : q = '"'.toUInt8
        · simp only [hq, if_true]
          cases hs : scanString rest with
          | none => rfl
          | some p =>
            obtain ⟨raw, r1⟩ := p
            simp only
            have h1 := scanString_length _ _ _ hs
            have h2 := skipSpace_length r1
            cases hsk : skipSpace r1 with
            | nil => rfl
            | cons colon r2 =>
              rw [hsk] at h2
              simp only [List.length_cons] at h2
              simp only
              have h3 := skipSpace_length r2
              by_cases hcol : colon = ':'.toUInt8
              · simp only [hcol, if_true]
                rw [ihV depth (skipSpace r2) (by omega)]
                cases hv : parseValue fuel depth (skipSpace r2) with
                | none => rfl
                | some p =>
                  obtain ⟨v, r3⟩ := p
                  simp only
                  have h4 := parseValue_length _ _ _ _ _ hv
                  have h5 := skipSpace_length r3
                  cases hsk3 : skipSpace r3 with
                  | nil => rfl
                  | cons sep r4 =>
                    rw [hsk3] at h5
                    simp only [List.length_cons] at h5
                    simp only
                    have h6 := skipSpace_length r4
                    rw [ihM depth (skipSpace r4) (by omega)]
              · simp [hcol]
        · simp [hq]
    · intro depth cs hlen
      conv_lhs => rw [parseElements]
      conv_rhs => rw [parseElements]
      rw [ihV depth cs (by omega)]
      cases hv : parseValue fuel depth cs with
      | none => rfl
      | some p =>
        obtain ⟨v, r1⟩ := p
        simp only
        have h4 := parseValue_length _ _ _ _ _ hv
        have h5 := skipSpace_length r1
        cases hsk : skipSpace r1 with
        | nil => rfl
        | cons sep r2 =>
          rw [hsk] at h5
          simp only [List.length_cons] at h5
          simp only
          have h6 := skipSpace_length r2
          rw [ihE depth (skipSpace r2) (by omega)]

/-- Any bound above twice the length of the text gives the same result as the bound `parse`
uses: the bound never cuts a parse short. -/
theorem parseValue_fuel (data cs : GoString) (depth : Nat) (hcs : cs.length ≤ data.length)
    (n : Nat) (hn : 2 * data.length < n) :
    parseValue n depth cs = parseValue (2 * data.length + 1) depth cs := by
  induction n with
  | zero => omega
  | succ n ih =>
    by_cases h : 2 * data.length < n
    · rw [(parse_fuel_aux n).1 depth cs (by omega), ih h]
    · have : n = 2 * data.length := by omega
      rw [this]

end json

/-! ### The decoder on a few bodies -/

namespace json

/-- What `Unmarshal` into a fresh struct returns for six bodies: an unfinished object is a
syntax error; an array, and a number for `input`, are type errors; a key that differs from
a field name in case only selects the field and an unknown key is skipped; the value `null`
changes nothing; a byte that is not well-formed UTF-8 inside a string literal is accepted and
stored as U+FFFD. -/
theorem Unmarshal_on_examples :
    (Unmarshal (GoString.ofString "\x7b") ⟨none, none, ""⟩).2
        = some (Error.SyntaxError (GoString.ofString "\x7b"))
      ∧ (Unmarshal (GoString.ofString "[]") ⟨none, none, ""⟩).2
        = some (Error.UnmarshalTypeError "array" "odmplugin.ExecutionRequestBody")
      ∧ (Unmarshal (GoString.ofString "\x7b\"input\":3\x7d") ⟨none, none, ""⟩).2
        = some (Error.UnmarshalTypeError "number" "string")
      ∧ (Unmarshal (GoString.ofString "\x7b\"INPUT\":\"x\",\"other\":[1,2]\x7d")
          ⟨none, none, ""⟩).2 = none
      ∧ (Unmarshal (GoString.ofString "\x7b\"INPUT\":\"x\",\"other\":[1,2]\x7d")
          ⟨none, none, ""⟩).1.Input = "x"
      ∧ (Unmarshal (GoString.ofString "null") ⟨none, none, ""⟩).2 = none
      ∧ (Unmarshal sample.invalidUTF8Body ⟨none, none, ""⟩).2 = none
      ∧ (Unmarshal sample.invalidUTF8Body ⟨none, none, ""⟩).1.Input
        = String.mk ['a', utf8.RuneError, 'b'] :=
  ⟨by rfl, by rfl, by rfl, by rfl, by rfl, by rfl, by rfl, by rfl⟩

end json

/-! ## Theorems: the RPC stubs -/

namespace odmplugin

/-- The server stub in terms of what the implementation returns for the background context. -/
theorem ExecuterRPCServer.Execute_of_returns {σ ε : Type} (impl : Executer σ ε)
    (body : GoString) (r0 : String) (s s' : σ) (r : String) (err : Option ε)
    (h : impl.Execute context.Background body s = some ((r, err), s')) :
    ExecuterRPCServer.Execute ⟨some impl⟩ body r0 s
      = some ((if err.isSome then r0 else r, err), s') := by
  cases err <;> simp [ExecuterRPCServer.Execute, h]

/-- C1. Whenever the implementation, called with the background context, returns `(r, err)`,
the server stub returns exactly `err`; the output location holds `r` when `err` is `nil` and
still holds its initial value `r0` when `err` is not `nil`. -/
theorem ExecuterRPCServer.Execute_writes_only_on_success {σ ε : Type} (impl : Executer σ ε)
    (body : GoString) (r0 : String) (s s' : σ) (r : String) (err : Option ε)
    (h : impl.Execute context.Background body s = some ((r, err), s')) :
    ExecuterRPCServer.Execute ⟨some impl⟩ body r0 s
      = some ((if err.isSome then r0 else r, err), s') := by
  cases err <;> simp [ExecuterRPCServer.Execute, h]

/-- C1, at concrete inputs: a successful call writes the result over `"old"`, a failing call
returns error `7` and leaves `"old"` in place although the implementation returned
`"partial"`. -/
theorem ExecuterRPCServer.Execute_writes_only_on_success_witness :
    ExecuterRPCServer.Execute ⟨some probe.failsOnEmpty⟩ (GoString.ofString "ping") "old" 0
        = some (("pong", none), 1)
      ∧ ExecuterRPCServer.Execute ⟨some probe.failsOnEmpty⟩ [] "old" 0
        = some (("old", some 7), 1) :=
  ⟨ExecuterRPCServer.Execute_writes_only_on_success probe.failsOnEmpty (GoString.ofString "ping")
      "old" 0 1 "pong" none rfl,
    ExecuterRPCServer.Execute_writes_only_on_success probe.failsOnEmpty [] "old" 0 1 "partial"
      (some 7) rfl⟩

/-- C5. Over the faithful transport, whenever the implementation (called with the background
context) returns `(r, err)`, the client stub makes exactly one call, of `"Plugin.Execute"`
with the body unchanged, and returns `(r, nil)` when `err` is `nil` and `("", err)` when it is
not, whatever `r` was. -/
theorem ExecuterRPCClient.Execute_end_to_end {σ ε : Type} (impl : Executer σ ε)
    (unknownMethod : ε) (ctx : context.Context) (body : GoString) (s s' : σ)
    (calls : List (String × GoString)) (r : String) (err : Option ε)
    (h : impl.Execute context.Background body s = some ((r, err), s')) :
    ExecuterRPCClient.Execute ⟨rpc.faithful ⟨some impl⟩ unknownMethod⟩ ctx body (s, calls)
      = some ((if err.isSome then "" else r, err), (s', calls ++ [("Plugin.Execute", body)])) := by
  cases err <;> simp [ExecuterRPCClient.Execute, rpc.faithful, ExecuterRPCServer.Execute, h]

/-- C5, at concrete inputs: one call is recorded in both cases; the failing call returns the
empty string with error `7` although the implementation returned `"partial"`. -/
theorem ExecuterRPCClient.Execute_end_to_end_witness :
    ExecuterRPCClient.Execute ⟨rpc.faithful ⟨some probe.failsOnEmpty⟩ 99⟩ probe.cancelled
        (GoString.ofString "ping") (0, [])
        = some (("pong", none), (1, [("Plugin.Execute", GoString.ofString "ping")]))
      ∧ ExecuterRPCClient.Execute ⟨rpc.faithful ⟨some probe.failsOnEmpty⟩ 99⟩ probe.cancelled []
        (0, []) = some (("", some 7), (1, [("Plugin.Execute", [])])) :=
  ⟨ExecuterRPCClient.Execute_end_to_end probe.failsOnEmpty 99 probe.cancelled
      (GoString.ofString "ping") 0 1 [] "pong" none rfl,
    ExecuterRPCClient.Execute_end_to_end probe.failsOnEmpty 99 probe.cancelled [] 0 1 []
      "partial" (some 7) rfl⟩

/-- C6. The context does not cross the RPC boundary. The client stub's call is the same for
any two contexts, over every transport. The server stub calls the implementation with the
background context only: two implementations that agree on the background context (and may
differ on every other one) give the same outcome behind the stub, and end to end over the
faithful transport, whatever contexts the host passes. The background context is never
done. -/
theorem Execute_ignores_host_context {σ ε τ : Type} (impl1 impl2 : Executer σ ε)
    (h : ∀ body s, impl1.Execute context.Background body s
      = impl2.Execute context.Background body s)
    (g : ExecuterRPCClient τ ε) (t : τ) (unknownMethod : ε) (c1 c2 : context.Context)
    (body : GoString) (r0 : String) (s : σ) (calls : List (String × GoString)) :
    g.Execute c1 body t = g.Execute c2 body t
      ∧ ExecuterRPCServer.Execute ⟨some impl1⟩ body r0 s
        = ExecuterRPCServer.Execute ⟨some impl2⟩ body r0 s
      ∧ ExecuterRPCClient.Execute ⟨rpc.faithful ⟨some impl1⟩ unknownMethod⟩ c1 body (s, calls)
        = ExecuterRPCClient.Execute ⟨rpc.faithful ⟨some impl2⟩ unknownMethod⟩ c2 body (s, calls)
      ∧ context.Background.done = false := by
  refine ⟨rfl, ?_, ?_, rfl⟩
  · simp [ExecuterRPCServer.Execute, h]
  · simp [ExecuterRPCClient.Execute, rpc.faithful, ExecuterRPCServer.Execute, h]

/-- C6, at concrete inputs: an implementation that would fail on a cancelled context answers
behind the stubs exactly as one that ignores its context, although the host's context is
cancelled. -/
theorem Execute_ignores_host_context_witness :
    ExecuterRPCClient.Execute ⟨rpc.faithful ⟨some probe.contextAware⟩ 99⟩ probe.cancelled
        (GoString.ofString "ping") (0, [])
      = ExecuterRPCClient.Execute ⟨rpc.faithful ⟨some probe.contextBlind⟩ 99⟩ context.Background
        (GoString.ofString "ping") (0, []) :=
  (Execute_ignores_host_context probe.contextAware probe.contextBlind (fun _ _ => rfl)
    (⟨rpc.faithful ⟨some probe.contextAware⟩ 99⟩ :
      ExecuterRPCClient (Nat × List (String × GoString)) Nat)
    (0, []) 99 probe.cancelled context.Background (GoString.ofString "ping") "" 0 []).2.2.1

end odmplugin

/-! ## Theorems: the registry and the handshake descriptor -/

namespace odmplugin

/-- C8. The registry `PluginMap` has the single key `"executer"`, the value under it is an
`ExecuterPlugin`, and no other name is registered; the registry built in the sample's `main`,
which is the one handed to `plugin.Serve`, has the single key `"executer"` too. -/
theorem PluginMap_single_key {σ ε : Type} (w : World) :
    GoMap.keys (PluginMap σ ε) = ["executer"]
      ∧ (∃ p, GoMap.get (PluginMap σ ε) "executer" = some (Plugin.ExecuterPlugin p))
      ∧ (∀ name, name ≠ "executer" → GoMap.get (PluginMap σ ε) name = none)
      ∧ GoMap.keys sample.main.pluginMap = ["executer"]
      ∧ GoMap.keys (sample.main w).1.Plugins = ["executer"]
      ∧ (∀ name, name ≠ "executer" → GoMap.get (sample.main w).1.Plugins name = none) := by
  refine ⟨rfl, ⟨⟨none⟩, rfl⟩, ?_, rfl, rfl, ?_⟩
  · intro name hne
    have hne' : (name == "executer") = false := by simpa using hne
    simp [GoMap.get, PluginMap, List.lookup, hne']
  · intro name hne
    have hne' : (name == "executer") = false := by simpa using hne
    simp [GoMap.get, sample.main, sample.main.pluginMap, List.lookup, hne']

/-- C8, at a concrete input: the name `"Executer"`, with a capital, is not registered. -/
theorem PluginMap_single_key_witness :
    GoMap.get (PluginMap Nat Nat) "Executer" = none :=
  (PluginMap_single_key (⟨[]⟩ : World)).2.2.1 "Executer" (by decide)

/-- C9. The handshake descriptor is protocol version 1 with cookie key `"magic"` and cookie
value `"cookie"`, and the sample serves with this very descriptor: the one it hands to
`plugin.Serve` equals the library's in all three fields. -/
theorem HandshakeConfig_fixed (w : World) :
    HandshakeConfig.ProtocolVersion = 1
      ∧ HandshakeConfig.MagicCookieKey = "magic"
      ∧ HandshakeConfig.MagicCookieValue = "cookie"
      ∧ sample.main.handshakeConfig = HandshakeConfig
      ∧ (sample.main w).1.HandshakeConfig = HandshakeConfig
      ∧ (sample.main w).1.HandshakeConfig.ProtocolVersion = HandshakeConfig.ProtocolVersion
      ∧ (sample.main w).1.HandshakeConfig.MagicCookieKey = HandshakeConfig.MagicCookieKey
      ∧ (sample.main w).1.HandshakeConfig.MagicCookieValue = HandshakeConfig.MagicCookieValue :=
  ⟨rfl, rfl, rfl, rfl, rfl, rfl, rfl, rfl⟩

/-- C10. `ExecuterPlugin.Server` returns no error and a stub whose `Impl` is the plugin's
`Impl`. The entry the library registers under `"executer"` has no `Impl`, so the stub it
yields has none, and `Execute` on that stub produces no result for any body. `Execute` on a
stub produces a result only if `Impl` is present. -/
theorem ExecuterPlugin.Server_keeps_Impl {σ ε : Type} :
    (∀ (p : ExecuterPlugin σ ε) (broker : plugin.MuxBroker),
        (p.Server broker).2 = none ∧ (p.Server broker).1.Impl = p.Impl)
      ∧ (∃ p0 : ExecuterPlugin σ ε,
          GoMap.get (PluginMap σ ε) "executer" = some (Plugin.ExecuterPlugin p0)
          ∧ p0.Impl.isNone = true
          ∧ (∀ broker, (p0.Server broker).1.Impl.isNone = true)
          ∧ (∀ broker body r0 s, (p0.Server broker).1.Execute body r0 s = none))
      ∧ (∀ (g : ExecuterRPCServer σ ε) body r0 s,
          g.Execute body r0 s ≠ none → g.Impl.isSome = true) := by
  refine ⟨fun p broker => ⟨rfl, rfl⟩, ⟨⟨none⟩, rfl, rfl, fun _ => rfl, fun _ _ _ _ => rfl⟩, ?_⟩
  intro g body r0 s hne
  cases hg : g.Impl with
  | none => exact absurd (by simp [ExecuterRPCServer.Execute, hg]) hne
  | some impl => rfl

/-- C10, at a concrete input: a stub that answers a call has an implementation. -/
theorem ExecuterPlugin.Server_keeps_Impl_witness :
    ExecuterRPCServer.Execute ⟨some probe.contextBlind⟩ (GoString.ofString "ping") "" 0 ≠ none
      ∧ (⟨some probe.contextBlind⟩ : ExecuterRPCServer Nat Nat).Impl.isSome = true :=
  ⟨by simp [ExecuterRPCServer.Execute, probe.contextBlind],
    ExecuterPlugin.Server_keeps_Impl.2.2 ⟨some probe.contextBlind⟩ (GoString.ofString "ping") "" 0
      (by simp [ExecuterRPCServer.Execute, probe.contextBlind])⟩

end odmplugin

/-! ## Theorems: the reference implementation -/

namespace sample

/-- The error `Execute` returns is the error `Unmarshal` returns for the body, and the result
string is empty exactly when there is one. -/
theorem ExecuterImpl.Execute_result (g : ExecuterImpl) (ctx : context.Context) (body : GoString)
    (w : World) :
    (g.Execute ctx body w).1
      = (if (json.Unmarshal body ⟨none, none, ""⟩).2.isSome then "" else "Success",
          (json.Unmarshal body ⟨none, none, ""⟩).2) := by
  unfold ExecuterImpl.Execute
  dsimp only
  generalize json.Unmarshal body ⟨none, none, ""⟩ = r
  rcases r with ⟨v, _ | e⟩ <;> rfl

/-- C7. No state leaks between calls of the reference implementation: the result and error
for `b2` after a call with `b1` are those for `b2` alone; they are the same from every world
and under every context, so they depend on the body only. Behind the server stub the same
holds, and the stub keeps nothing of its own: its state is the implementation's. -/
theorem ExecuterImpl.Execute_no_state_leak (g : ExecuterImpl) (ctx1 ctx2 : context.Context)
    (b1 b2 : GoString) (r1 r2 : String) (w : World) :
    (g.Execute ctx2 b2 (g.Execute ctx1 b1 w).2).1 = (g.Execute ctx2 b2 w).1
      ∧ (∀ (g' : ExecuterImpl) (ctx' : context.Context) (w' : World),
          (g'.Execute ctx' b2 w').1 = (g.Execute ctx2 b2 w).1)
      ∧ ((odmplugin.ExecuterRPCServer.Execute ⟨some g.Executer⟩ b1 r1 w).bind
            (fun o => (odmplugin.ExecuterRPCServer.Execute ⟨some g.Executer⟩ b2 r2 o.2).map
              Prod.fst)
          = (odmplugin.ExecuterRPCServer.Execute ⟨some g.Executer⟩ b2 r2 w).map Prod.fst)
      ∧ (odmplugin.ExecuterRPCServer.Execute ⟨some g.Executer⟩ b2 r2 w).isSome = true
      ∧ (odmplugin.ExecuterRPCServer.Execute ⟨some g.Executer⟩ b2 r2 w).map Prod.snd
          = some (g.Execute context.Background b2 w).2 := by
  have key : ∀ (g' : ExecuterImpl) (ctx' : context.Context) (w' : World),
      (g'.Execute ctx' b2 w').1 = (g.Execute ctx2 b2 w).1 := by
    intro g' ctx' w'
    rw [ExecuterImpl.Execute_result, ExecuterImpl.Execute_result]
  have stub : ∀ (b : GoString) (r : String) (w' : World),
      odmplugin.ExecuterRPCServer.Execute ⟨some g.Executer⟩ b r w'
        = some ((if (g.Execute context.Background b w').1.2.isSome then r
            else (g.Execute context.Background b w').1.1,
            (g.Execute context.Background b w').1.2), (g.Execute context.Background b w').2) := by
    intro b r w'
    exact odmplugin.ExecuterRPCServer.Execute_of_returns g.Executer b r w' _ _ _ rfl
  refine ⟨key g ctx2 _, key, ?_, ?_, ?_⟩
  · simp only [stub, Option.some_bind, Option.map_some']
    rw [key g context.Background (g.Execute context.Background b1 w).2,
      key g context.Background w]
  · rw [stub b2 r2 w]; rfl
  · rw [stub b2 r2 w]; rfl

/-- C2, as the claim states it, fails. The body `{"input":"a\xffb"}` is not a valid JSON
text, because it is not well-formed UTF-8; yet `Unmarshal` accepts it, storing U+FFFD for the
byte `0xFF`, and `Execute` returns `("Success", nil)`: a non-empty result and no error. -/
theorem ExecuterImpl.Execute_invalid_utf8_succeeds :
    ¬ json.IsJSONText invalidUTF8Body
      ∧ ExecuterImpl.Execute ⟨⟩ context.Background invalidUTF8Body ⟨[]⟩
        = (("Success", none),
          log.Printf
            "Plugin: Execute called with body: \n\tArguments:%s\n\tInput: %s\n\tOptions: %s"
            [log.Arg.mapString none, log.Arg.string (String.mk ['a', utf8.RuneError, 'b']),
              log.Arg.mapAny none] ⟨[]⟩) := by
  refine ⟨fun h => ?_, by rfl⟩
  have hv : utf8.Valid invalidUTF8Body = false := by decide
  rw [h.1] at hv
  exact absurd hv (by decide)

/-- C2, amended. For every body that is not a text of the JSON grammar even when the bytes
inside its string literals need not be well-formed UTF-8 (so for every body that is
well-formed UTF-8 and not a valid JSON text), `Execute` returns the empty result string
together with the error `Unmarshal` gives for the body, a syntax error for that very text, and
leaves the world as it is. For every body whatever, the error `Execute` returns is the one
`Unmarshal` returns, unchanged, and a result beside an error is the empty string. -/
theorem ExecuterImpl.Execute_rejected_text (g : ExecuterImpl) (ctx : context.Context)
    (body : GoString) (w : World) (h : ¬ json.grammar.text body) :
    ¬ json.IsJSONText body
      ∧ json.Valid body = false
      ∧ (json.Unmarshal body ⟨none, none, ""⟩).2 = some (json.Error.SyntaxError body)
      ∧ g.Execute ctx body w = (("", some (json.Error.SyntaxError body)), w)
      ∧ (∀ (ctx' : context.Context) (body' : GoString) (w' : World),
          (g.Execute ctx' body' w').1.2 = (json.Unmarshal body' ⟨none, none, ""⟩).2)
      ∧ (∀ (ctx' : context.Context) (body' : GoString) (w' : World),
          (g.Execute ctx' body' w').1.2 ≠ none → (g.Execute ctx' body' w').1.1 = "")
      ∧ (∀ body' : GoString, utf8.Valid body' = true → ¬ json.IsJSONText body' →
          ¬ json.grammar.text body') := by
  have hparse : json.parse body = none := by
    cases hp : json.parse body with
    | none => rfl
    | some v => exact absurd (json.parse_sound _ _ hp) h
  have hU : json.Unmarshal body ⟨none, none, ""⟩
      = (⟨none, none, ""⟩, some (json.Error.SyntaxError body)) := by
    unfold json.Unmarshal
    rw [hparse]
  refine ⟨fun hj => h hj.2, by unfold json.Valid; rw [hparse]; rfl, by rw [hU], ?_, ?_, ?_, ?_⟩
  · unfold ExecuterImpl.Execute
    simp [hU]
  · intro ctx' body' w'
    rw [ExecuterImpl.Execute_result]
  · intro ctx' body' w' hne
    rw [ExecuterImpl.Execute_result] at hne ⊢
    cases he : (json.Unmarshal body' ⟨none, none, ""⟩).2 with
    | none => exact absurd (by simp [he]) hne
    | some e => simp
  · intro body' hv hj ht
    exact hj ⟨hv, ht⟩

/-- C2 amended, at concrete inputs: the body `hello`, well-formed UTF-8 and not JSON, and the
body of the single byte `0xFF`, outside any string literal, are not texts of the grammar, and
`Execute` returns the empty string with the syntax error for each. -/
theorem ExecuterImpl.Execute_rejected_text_witness :
    (¬ json.grammar.text (GoString.ofString "hello")
        ∧ ExecuterImpl.Execute ⟨⟩ context.Background (GoString.ofString "hello") ⟨[]⟩
          = (("", some (json.Error.SyntaxError (GoString.ofString "hello"))), ⟨[]⟩))
      ∧ (¬ json.grammar.text [0xFF]
        ∧ ExecuterImpl.Execute ⟨⟩ context.Background [0xFF] ⟨[]⟩
          = (("", some (json.Error.SyntaxError [0xFF])), ⟨[]⟩)) :=
  ⟨⟨json.grammar.not_text_of_head 'h'.toUInt8 (GoString.ofString "ello") (by decide)
      (by unfold json.grammar.digit; decide),
    (ExecuterImpl.Execute_rejected_text ⟨⟩ context.Background (GoString.ofString "hello") ⟨[]⟩
      (json.grammar.not_text_of_head 'h'.toUInt8 (GoString.ofString "ello") (by decide)
        (by unfold json.grammar.digit; decide))).2.2.2.1⟩,
   ⟨json.grammar.not_text_of_head 0xFF [] (by decide) (by unfold json.grammar.digit; decide),
    (ExecuterImpl.Execute_rejected_text ⟨⟩ context.Background [0xFF] ⟨[]⟩
      (json.grammar.not_text_of_head 0xFF [] (by decide)
        (by unfold json.grammar.digit; decide))).2.2.2.1⟩⟩

/-- C3. For every body that `Unmarshal` decodes without error, `Execute` returns
`("Success", nil)`; nothing is required of the decoded value, so a body without some or all of
the fields is accepted. In particular the body of the spec's example decodes without error,
into args `a` = `1`, no options and input `hi`, and `Execute` returns `("Success", nil)`. -/
theorem ExecuterImpl.Execute_success (g : ExecuterImpl) (ctx : context.Context) (w : World) :
    (∀ body : GoString, (json.Unmarshal body ⟨none, none, ""⟩).2 = none →
        (g.Execute ctx body w).1 = ("Success", none))
      ∧ (json.Unmarshal exampleBody ⟨none, none, ""⟩).2 = none
      ∧ (json.Unmarshal exampleBody ⟨none, none, ""⟩).1.Args = some [("a", "1")]
      ∧ (json.Unmarshal exampleBody ⟨none, none, ""⟩).1.Input = "hi"
      ∧ (g.Execute ctx exampleBody w).1 = ("Success", none) := by
  have gen : ∀ body : GoString, (json.Unmarshal body ⟨none, none, ""⟩).2 = none →
      (g.Execute ctx body w).1 = ("Success", none) := by
    intro body hb
    rw [ExecuterImpl.Execute_result, hb]
    rfl
  exact ⟨gen, by rfl, by rfl, by rfl, gen exampleBody (by rfl)⟩

/-- C3, at concrete inputs: the empty object, which has none of the three fields, and the
JSON value `null` are accepted. -/
theorem ExecuterImpl.Execute_success_witness :
    (ExecuterImpl.Execute ⟨⟩ context.Background (GoString.ofString "\x7b\x7d") ⟨[]⟩).1
        = ("Success", none)
      ∧ (ExecuterImpl.Execute ⟨⟩ context.Background (GoString.ofString "null") ⟨[]⟩).1
        = ("Success", none) :=
  ⟨(ExecuterImpl.Execute_success ⟨⟩ context.Background ⟨[]⟩).1 (GoString.ofString "\x7b\x7d")
      (by rfl),
    (ExecuterImpl.Execute_success ⟨⟩ context.Background ⟨[]⟩).1 (GoString.ofString "null")
      (by rfl)⟩

end sample
